import Mathlib

/-!
# ds3_browser: the bulk transfer engine of `src/lib/client.cc`

A shallow embedding of `Client::PrepareBulkPuts`, `Client::DoBulkPut`,
`Client::PutBulkObjectList`, `Client::DeleteOrRequeueBulkPutWorkItem` and of
their GET siblings, together with the parts of Qt they rely on
(`QString::replace(QRegExp, QString)`, `QHash::insert`).

Conventions.
* A `QString` is the list of its characters.
* `QtConcurrent::run(this, &Client::F, workItem)` puts a task `F` into a pool;
  a run of a job is a schedule that picks, step after step, which pending task
  runs next.
* The work item classes (`BulkPutWorkItem`, `BulkGetWorkItem`), `DS3URL` and the
  ds3 C SDK are not part of the sources at hand; what the engine needs of them
  is modelled and marked as such.
-/

namespace DS3Browser

/-! ## Strings and the fragment of `QRegExp` used by the engine -/

/-- A `QString`, as the list of its characters. -/
abbrev QString := List Char

/-- The constant `Client::DELIMITER`, the string "/". -/
def DELIMITER : QString := ['/']

/-- The constant `Client::BULK_PAGE_LIMIT`. -/
def BULK_PAGE_LIMIT : Nat := 500000

/-- Quantifier of a regular expression atom: `E`, `E?`, `E*`, `E+`. -/
inductive RxQuant where
  | one
  | opt
  | star
  | plus
  deriving DecidableEq, Repr

/-- An atom: a literal character or `.` (any character). -/
inductive RxAtom where
  | lit (c : Char)
  | any
  deriving DecidableEq, Repr

/-- One item of a pattern: the assertions `^` and `$`, or a quantified atom. -/
inductive RxItem where
  | caret
  | dollar
  | atom (a : RxAtom) (q : RxQuant)
  deriving DecidableEq, Repr

/-- The quantifier a character denotes in a `QRegExp` pattern, if any. -/
def quantOf (c : Char) : Option RxQuant :=
  if c = '*' then some RxQuant.star
  else if c = '+' then some RxQuant.plus
  else if c = '?' then some RxQuant.opt
  else none

/-- Pattern characters whose `QRegExp` meaning (escapes, groups, sets, counted
repetition, alternation) lies outside the fragment modelled here. -/
def rxUnsupported (c : Char) : Bool :=
  c = '\\' || c = '(' || c = ')' || c = '[' || c = ']' || c = '{' || c = '}' || c = '|'

/-- One step of reading a pattern from right to left: the items read so far and
the quantifier waiting for the atom on its left. -/
def rxStep (c : Char) (acc : Option (List RxItem × Option RxQuant)) :
    Option (List RxItem × Option RxQuant) :=
  match acc with
  | none => none
  | some (items, pending) =>
    if rxUnsupported c then none
    else match quantOf c with
      | some q =>
        match pending with
        | none => some (items, some q)
        | some _ => none
      | none =>
        if c = '^' then
          (match pending with
           | none => some (RxItem.caret :: items, none)
           | some _ => none)
        else if c = '$' then
          (match pending with
           | none => some (RxItem.dollar :: items, none)
           | some _ => none)
        else
          let a := if c = '.' then RxAtom.any else RxAtom.lit c
          some (RxItem.atom a (pending.getD RxQuant.one) :: items, none)

/-- The items of a `QRegExp` pattern, for patterns made of literal characters,
`.`, `^`, `$` and the quantifiers `?`, `*`, `+` on a single atom. Patterns
outside this fragment give `none`. -/
def rxParse (pattern : QString) : Option (List RxItem) :=
  match pattern.foldr rxStep (some ([], none)) with
  | some (items, none) => some items
  | _ => none

/-- Does the atom accept the character (matching is case sensitive). -/
def RxAtom.ok : RxAtom → Char → Bool
  | RxAtom.any, _ => true
  | RxAtom.lit c, d => decide (c = d)

/-- The longer of two match lengths. -/
def rxBest : Option Nat → Option Nat → Option Nat
  | none, b => b
  | some a, none => some a
  | some a, some b => some (max a b)

/-- Matching `E*` followed by the continuation `k`: the longest overall match. -/
def matchStar (ok : Char → Bool) (k : Bool → QString → Option Nat) :
    Bool → QString → Option Nat
  | z, [] => k z []
  | z, c :: s =>
    rxBest (k z (c :: s)) (if ok c then (matchStar ok k false s).map (· + 1) else none)

/-- The length of the longest match of the items at the current position, as
`QRegExp` computes it (`matchedLength`), or `none` when there is no match here.
`z` tells whether the position is offset 0 of the subject (where `^` holds);
the argument string is the subject from the position on (`$` holds at its end). -/
def matchHere : List RxItem → Bool → QString → Option Nat
  | [], _, _ => some 0
  | RxItem.caret :: r, z, s => if z then matchHere r z s else none
  | RxItem.dollar :: r, z, s => if s.isEmpty then matchHere r z s else none
  | RxItem.atom a RxQuant.one :: r, _, s =>
    match s with
    | [] => none
    | c :: s' => if a.ok c then (matchHere r false s').map (· + 1) else none
  | RxItem.atom a RxQuant.opt :: r, z, s =>
    rxBest (matchHere r z s)
      (match s with
       | [] => none
       | c :: s' => if a.ok c then (matchHere r false s').map (· + 1) else none)
  | RxItem.atom a RxQuant.star :: r, z, s => matchStar a.ok (matchHere r) z s
  | RxItem.atom a RxQuant.plus :: r, _, s =>
    match s with
    | [] => none
    | c :: s' =>
      if a.ok c then (matchStar a.ok (matchHere r) false s').map (· + 1) else none

/-- The loop of `QString::replace(const QRegExp&, const QString&)`: scan the
subject from left to right, replace every match found (leftmost, longest, not
overlapping) by `after`; after an empty match the scan moves on by one character.
`skip` counts the characters of the current match still to be dropped. -/
def replaceGo (items : List RxItem) (after : QString) : Nat → Bool → QString → QString
  | _ + 1, _, [] => []
  | k + 1, _, _ :: s => replaceGo items after k false s
  | 0, z, [] =>
    match matchHere items z [] with
    | none => []
    | some _ => after
  | 0, z, c :: s =>
    match matchHere items z (c :: s) with
    | none => c :: replaceGo items after 0 false s
    | some 0 => after ++ c :: replaceGo items after 0 false s
    | some (n + 1) => after ++ replaceGo items after n false s

/-- The call `s.replace(QRegExp(pattern), after)`. -/
def QString.replace (s : QString) (pattern after : QString) : Option QString :=
  (rxParse pattern).map (fun items => replaceGo items after 0 true s)

/-- The normalized prefix of `Client::PrepareBulkPuts`:
`if (!normPrefix.isEmpty()) { normPrefix.replace(QRegExp("/$"), ""); normPrefix += "/"; }`. -/
def normPrefix (p : QString) : Option QString :=
  if p.isEmpty then some p
  else (QString.replace p ['/', '$'] []).map (· ++ ['/'])

/-! ## The object map (`QHash<QString, QString>`) -/

/-- The object map of a work item, key to local file path, as an association
list with unique keys. -/
abbrev ObjMap := List (QString × QString)

/-- The call `workItem->InsertObjMap(key, value)`, that is `QHash::insert`: the
value of an existing key is replaced, a new key is added. -/
def InsertObjMap : ObjMap → QString → QString → ObjMap
  | [], k, v => [(k, v)]
  | (k', v') :: m, k, v =>
    if k' = k then (k, v) :: m else (k', v') :: InsertObjMap m k v

/-- The call `workItem->GetObjMapValue(key)`, that is `QHash::value`: the empty
string for an unknown key. -/
def GetObjMapValue : ObjMap → QString → QString
  | [], _ => []
  | (k', v') :: m, k => if k' = k then v' else GetObjMapValue m k

/-- The call `workItem->GetObjMapSize()`. -/
def GetObjMapSize (m : ObjMap) : Nat := m.length

/-! ## Jobs, work items, tasks -/

/-- The states of a job (`Job::State`). -/
inductive JobState where
  | QUEUED
  | PREPARING
  | INPROGRESS
  | FINISHED
  deriving DecidableEq, Repr

/-- One entry produced by the work item's `QDirIterator`: the path returned by
`di->next()` and `di->fileInfo().isDir()`. -/
structure DirEntry where
  subFilePath : QString
  isDir : Bool
  deriving DecidableEq, Repr

/-- One URL of a PUT job as `PrepareBulkPuts` sees it: `filePath` is
`QDir((*ui).toLocalFile()).path()`, `isDir` is `QFileInfo(filePath).isDir()` and
`walk` lists what a fresh `QDirIterator` over `filePath` yields, in order. -/
structure LocalUrl where
  filePath : QString
  isDir : Bool
  walk : List DirEntry
  deriving DecidableEq, Repr

/-- The call `QFileInfo(filePath).fileName()`: the part after the last "/". -/
def fileName (filePath : QString) : QString :=
  (filePath.reverse.takeWhile (fun c => c ≠ '/')).reverse

/-- A `ds3_bulk_object`: name, length, offset. -/
structure BulkObject where
  name : QString
  length : Nat
  offset : Nat
  deriving DecidableEq, Repr

/-- A `ds3_bulk_object_list`: the request of a negotiation, or one chunk of the
plan it returns. -/
abbrev BulkObjectList := List BulkObject

/-- What `ds3_bulk` hands back: an error (the response pointer then keeps the
`NULL` it was given), or a response holding the list of chunks. -/
inductive BulkResult where
  | error
  | plan (list : List BulkObjectList)
  deriving DecidableEq, Repr

/-- How one `Client::PutObject` call ends. -/
inductive PutOutcome where
  | ok
  | openFailed
  | storageError
  deriving DecidableEq, Repr

/-- The tasks a PUT job puts into the thread pool with `QtConcurrent::run`.
`DoBulkPutLoop` is the `for` loop at the end of `DoBulkPut`, with the chunks it
still has to start: each of its iterations is one step of the thread that runs
`DoBulkPut`. -/
inductive PutTask where
  | PrepareBulkPuts
  | DoBulkPut
  | DoBulkPutLoop (rest : List BulkObjectList)
  | PutBulkObjectList (list : BulkObjectList)
  deriving DecidableEq, Repr

/-- What a job does that can be observed from outside. `SetState` stands for
`workItem->SetState(s)` with the `JobProgressUpdate` that follows it, `Bulk` for
the negotiation call `ds3_bulk`, `Inc` and `Dec` carry the value of the
outstanding-chunk counter after the call, `RunList` is
`run(this, &Client::PutBulkObjectList, workItem, list)` (or its GET sibling),
`PageFinished` marks the page-finished branch of
`DeleteOrRequeueBulkPutWorkItem`. -/
inductive Event where
  | SetState (s : JobState)
  | Bulk (bucket : QString) (objs : BulkObjectList)
  | Inc (count : Int)
  | Dec (count : Int)
  | RunPrepare
  | RunDoBulk
  | RunList (list : BulkObjectList)
  | PutObject (bucket object file : QString) (outcome : PutOutcome)
  | GetObject (bucket object file : QString)
  | PageFinished
  | Delete
  deriving DecidableEq, Repr

/-- The storage service and the file system, as far as the engine consults them. -/
structure Env where
  /-- `ds3_bulk` for the bucket and object list of the request. -/
  ds3_bulk : QString → BulkObjectList → BulkResult
  /-- `ds3_put_object` for a bucket and object name: `true` when it returns an error. -/
  ds3_put_object : QString → QString → Bool
  /-- `QFileInfo(path).isDir()`. -/
  isDir : QString → Bool
  /-- `QFileInfo(path).size()`. -/
  size : QString → Nat
  /-- `ObjectWorkItem::OpenFile(QIODevice::ReadOnly)` for the file at a path. -/
  openFile : QString → Bool

/-- Modelled from the spec: the class `BulkPutWorkItem` (with its base
`BulkWorkItem`) is not among the sources. The state it holds: the job state, bucket
and prefix, the URL list from its iterator on (`GetUrlsIterator()` up to
`GetUrlsConstEnd()`), the object map, the resumable directory-walk cursor
(`GetDirIterator()`, `none` for `NULL`, else the entries not yet returned by
`next()`), the per-page counter of chunks still executing, and whether
`delete workItem` has run (what a task does through the pointer after that is
modelled as if the fields were still there). The host, the response pointer kept
by `SetResponse`, the sizes and the transfer start time play no part in the
control flow and are left out. -/
structure BulkPutWorkItem where
  state : JobState
  bucketName : QString
  pfx : QString
  urls : List LocalUrl
  objMap : ObjMap
  dirIterator : Option (List DirEntry)
  workingObjListCount : Int
  deleted : Bool
  deriving DecidableEq, Repr

/-- Modelled from the spec: `BulkWorkItem::IncWorkingObjListCount`, one more chunk
executing. -/
def BulkPutWorkItem.IncWorkingObjListCount (w : BulkPutWorkItem) : BulkPutWorkItem :=
  { w with workingObjListCount := w.workingObjListCount + 1 }

/-- Modelled from the spec: `BulkWorkItem::DecWorkingObjListCount`, "decrement the
page's outstanding-chunk counter". -/
def BulkPutWorkItem.DecWorkingObjListCount (w : BulkPutWorkItem) : BulkPutWorkItem :=
  { w with workingObjListCount := w.workingObjListCount - 1 }

/-- Modelled from the spec: `BulkWorkItem::IsPageFinished`, "page-finished
(outstanding-chunk counter hits zero)". -/
def BulkPutWorkItem.IsPageFinished (w : BulkPutWorkItem) : Bool :=
  decide (w.workingObjListCount = 0)

/-- Modelled from the spec: `BulkPutWorkItem::IsFinished`, no input remains:
neither a directory cursor that is not exhausted nor source locations left. -/
def BulkPutWorkItem.IsFinished (w : BulkPutWorkItem) : Bool :=
  w.urls.isEmpty && w.dirIterator.isNone

/-- What running a task gives: the work item afterwards, the events in order, and
the tasks handed to `QtConcurrent::run` (with the continuation of a loop). -/
structure PutOut where
  item : BulkPutWorkItem
  events : List Event
  spawned : List PutTask
  deriving DecidableEq, Repr

/-! ## `Client::PrepareBulkPuts` -/

/-- The object name of a directory entry: `subFileName` is `subFilePath` with
`QRegExp("^" + filePath + "/")` replaced by "", appended to `objName`, with a "/"
after it for a directory. -/
def subObjName (objName filePath : QString) (e : DirEntry) : Option QString :=
  (QString.replace e.subFilePath (['^'] ++ filePath ++ ['/']) []).map fun subFileName =>
    if e.isDir then objName ++ subFileName ++ ['/'] else objName ++ subFileName

/-- The loop `while (di->hasNext())` of `PrepareBulkPuts` over the entries the
iterator has left. The result is the object map and the cursor: `some rest` when
the page limit stopped the walk (then `DoBulkPut` is dispatched and the function
returns), `none` when the iterator is exhausted. -/
def walkDir (objName filePath : QString) :
    List DirEntry → ObjMap → Option (ObjMap × Option (List DirEntry))
  | [], m => some (m, none)
  | e :: es, m =>
    if GetObjMapSize m ≥ BULK_PAGE_LIMIT then some (m, some (e :: es))
    else
      match subObjName objName filePath e with
      | none => none
      | some key => walkDir objName filePath es (InsertObjMap m key e.subFilePath)

/-- The result of the loop over the URLs: the URLs left (from the iterator on),
the directory cursor, the object map, and whether `DoBulkPut` was dispatched. -/
structure Prepared where
  urls : List LocalUrl
  dirIterator : Option (List DirEntry)
  objMap : ObjMap
  dispatched : Bool
  deriving DecidableEq, Repr

/-- The loop `for (ui ...; ui != workItem->GetUrlsConstEnd(); ui++)` of
`PrepareBulkPuts` and the dispatch after it. -/
def prepareLoop (normPfx : QString) :
    List LocalUrl → Option (List DirEntry) → ObjMap → Option Prepared
  | [], di, m => some ⟨[], di, m, decide (GetObjMapSize m > 0)⟩
  | u :: us, di, m =>
    if GetObjMapSize m ≥ BULK_PAGE_LIMIT then some ⟨u :: us, di, m, true⟩
    else
      let objName := normPfx ++ fileName u.filePath
      if u.isDir then
        let objName := objName ++ ['/']
        match walkDir objName u.filePath (di.getD u.walk) m with
        | none => none
        | some (m', some rest) => some ⟨u :: us, some rest, m', true⟩
        | some (m', none) =>
          prepareLoop normPfx us none (InsertObjMap m' objName u.filePath)
      else prepareLoop normPfx us di (InsertObjMap m objName u.filePath)

/-- The function `Client::PrepareBulkPuts`. It is `none` when a pattern
`"^" + filePath + "/"` lies outside the modelled fragment of `QRegExp`. -/
def PrepareBulkPuts (w : BulkPutWorkItem) : Option PutOut :=
  (normPrefix w.pfx).bind fun normPfx =>
  (prepareLoop normPfx w.urls w.dirIterator []).map fun p =>
    { item := { w with state := JobState.PREPARING, urls := p.urls,
                       dirIterator := p.dirIterator, objMap := p.objMap }
      events := Event.SetState JobState.PREPARING ::
        (if p.dispatched then [Event.RunDoBulk] else [])
      spawned := if p.dispatched then [PutTask.DoBulkPut] else [] }

/-! ## `Client::DoBulkPut`, `Client::PutBulkObjectList`,
`Client::DeleteOrRequeueBulkPutWorkItem` -/

/-- The function `Client::DeleteOrRequeueBulkPutWorkItem`. -/
def DeleteOrRequeueBulkPutWorkItem (w : BulkPutWorkItem) : PutOut :=
  if w.IsPageFinished then
    if w.IsFinished then
      { item := { w with state := JobState.FINISHED, deleted := true }
        events := [Event.PageFinished, Event.SetState JobState.FINISHED, Event.Delete]
        spawned := [] }
    else
      { item := w
        events := [Event.PageFinished, Event.RunPrepare]
        spawned := [PutTask.PrepareBulkPuts] }
  else { item := w, events := [], spawned := [] }

/-- The object list `DoBulkPut` builds from the object map. -/
def putBulkObjList (env : Env) (m : ObjMap) : BulkObjectList :=
  m.map fun kv =>
    { name := kv.1, length := if env.isDir kv.2 then 0 else env.size kv.2, offset := 0 }

/-- The function `Client::DoBulkPut` up to its `for` loop: the state change, the
negotiation, and the branch on the response. -/
def DoBulkPut (env : Env) (w : BulkPutWorkItem) : PutOut :=
  let w1 := { w with state := JobState.INPROGRESS }
  let objs := putBulkObjList env w1.objMap
  let head := [Event.SetState JobState.INPROGRESS, Event.Bulk w1.bucketName objs]
  match env.ds3_bulk w1.bucketName objs with
  | BulkResult.plan (l :: ls) =>
    { item := w1, events := head, spawned := [PutTask.DoBulkPutLoop (l :: ls)] }
  | _ =>
    let out := DeleteOrRequeueBulkPutWorkItem w1
    { out with events := head ++ out.events }

/-- One iteration of the `for` loop of `DoBulkPut`:
`workItem->IncWorkingObjListCount(); run(this, &Client::PutBulkObjectList, workItem, list);`. -/
def DoBulkPutLoop (rest : List BulkObjectList) (w : BulkPutWorkItem) : PutOut :=
  match rest with
  | [] => { item := w, events := [], spawned := [] }
  | l :: ls =>
    let w1 := w.IncWorkingObjListCount
    { item := w1
      events := [Event.Inc w1.workingObjListCount, Event.RunList l]
      spawned := PutTask.PutBulkObjectList l ::
        (if ls.isEmpty then [] else [PutTask.DoBulkPutLoop ls]) }

/-- The function `Client::PutObject`, as its outcome: a "folder" object is put
without data; a file is put if it can be opened. -/
def PutObject (env : Env) (bucket object file : QString) : PutOutcome :=
  if env.isDir file then
    (if env.ds3_put_object bucket object then PutOutcome.storageError else PutOutcome.ok)
  else if env.openFile file then
    (if env.ds3_put_object bucket object then PutOutcome.storageError else PutOutcome.ok)
  else PutOutcome.openFailed

/-- The `for` loop of `PutBulkObjectList`: one `PutObject` per entry of the chunk. -/
def putAll (env : Env) (w : BulkPutWorkItem) (list : BulkObjectList) : List Event :=
  list.map fun o =>
    let file := GetObjMapValue w.objMap o.name
    Event.PutObject w.bucketName o.name file (PutObject env w.bucketName o.name file)

/-- The function `Client::PutBulkObjectList`. -/
def PutBulkObjectList (env : Env) (list : BulkObjectList) (w : BulkPutWorkItem) : PutOut :=
  let puts := putAll env w list
  let w1 := w.DecWorkingObjListCount
  let out := DeleteOrRequeueBulkPutWorkItem w1
  { out with events := puts ++ Event.Dec w1.workingObjListCount :: out.events }

/-! ## Runs of a PUT job -/

/-- A PUT job in flight: the work item, the pending tasks, the events so far. -/
structure PutSys where
  item : BulkPutWorkItem
  pool : List PutTask
  log : List Event
  deriving DecidableEq, Repr

/-- Running one task on the work item. -/
def runPutTask (env : Env) (t : PutTask) (w : BulkPutWorkItem) : Option PutOut :=
  match t with
  | PutTask.PrepareBulkPuts => PrepareBulkPuts w
  | PutTask.DoBulkPut => some (DoBulkPut env w)
  | PutTask.DoBulkPutLoop rest => some (DoBulkPutLoop rest w)
  | PutTask.PutBulkObjectList list => some (PutBulkObjectList env list w)

/-- One step of a run: the pending task number `i` runs; what it starts joins the
pool. `none` when there is no such task (or the task leaves the model). -/
def PutSys.step (env : Env) (s : PutSys) (i : Nat) : Option PutSys :=
  match s.pool.get? i with
  | none => none
  | some t =>
    (runPutTask env t s.item).map fun out =>
      { item := out.item, pool := s.pool.eraseIdx i ++ out.spawned,
        log := s.log ++ out.events }

/-- A run along a schedule, the list of the task numbers picked. -/
def PutSys.exec (env : Env) : PutSys → List Nat → Option PutSys
  | s, [] => some s
  | s, i :: sched => (s.step env i).bind fun s' => PutSys.exec env s' sched

/-- The function `Client::BulkPut`: a new work item in state `QUEUED`, and
`PrepareBulkPuts` handed to the pool. -/
def BulkPut (bucketName pfx : QString) (urls : List LocalUrl) : PutSys :=
  { item := { state := JobState.QUEUED, bucketName := bucketName, pfx := pfx, urls := urls,
              objMap := [], dirIterator := none, workingObjListCount := 0,
              deleted := false }
    pool := [PutTask.PrepareBulkPuts]
    log := [Event.SetState JobState.QUEUED, Event.RunPrepare] }

/-! ## GET jobs -/

/-- Modelled from the spec: the class `DS3URL` is not among the sources. One URL of
a GET job, as the values `PrepareBulkGets` reads from it: `GetBucketName()`,
`GetObjectName()`, `GetLastPathPart()`, `IsBucketOrFolder()`. -/
structure DS3URL where
  bucketName : QString
  objectName : QString
  lastPathPart : QString
  isBucketOrFolder : Bool
  deriving DecidableEq, Repr

/-- Modelled from the spec: the class `BulkGetWorkItem` is not among the sources.
The state it holds: the job state, the bucket name last set, the destination
directory, the URL list from its iterator on, the object map and the per-page
counter of chunks still executing. -/
structure BulkGetWorkItem where
  state : JobState
  bucketName : QString
  destination : QString
  urls : List DS3URL
  objMap : ObjMap
  workingObjListCount : Int
  deriving DecidableEq, Repr

/-- The tasks a GET job puts into the thread pool; `DoBulkGetLoop` is the `for`
loop at the end of `DoBulkGet` with the chunks it still has to start. -/
inductive GetTask where
  | PrepareBulkGets
  | DoBulkGet
  | DoBulkGetLoop (rest : List BulkObjectList)
  | GetBulkObjectList (list : BulkObjectList)
  deriving DecidableEq, Repr

/-- What running a task of a GET job gives. -/
structure GetOut where
  item : BulkGetWorkItem
  events : List Event
  spawned : List GetTask
  deriving DecidableEq, Repr

/-- The result of the loop over the URLs of a GET job. -/
structure PreparedGet where
  urls : List DS3URL
  bucketName : QString
  objMap : ObjMap
  dispatched : Bool
  deriving DecidableEq, Repr

/-- The loop over the URLs of `PrepareBulkGets` and the dispatch after it.
`cleanPath` is `QDir::cleanPath`, `prevBucket` the local variable of that name,
`bucketName` the bucket name held by the work item. -/
def prepareGetLoop (cleanPath : QString → QString) (destination : QString) :
    List DS3URL → QString → QString → ObjMap → PreparedGet
  | [], _, bucketName, m => ⟨[], bucketName, m, decide (GetObjMapSize m > 0)⟩
  | u :: us, prevBucket, _, m =>
    let bucket := u.bucketName
    if GetObjMapSize m ≥ BULK_PAGE_LIMIT ∨ (¬ prevBucket.isEmpty ∧ prevBucket ≠ bucket) then
      ⟨u :: us, bucket, m, true⟩
    else
      let filePath := cleanPath (destination ++ ['/'] ++ u.lastPathPart)
      prepareGetLoop cleanPath destination us bucket bucket
        (if u.isBucketOrFolder then m else InsertObjMap m u.objectName filePath)

/-- The function `Client::PrepareBulkGets`. -/
def PrepareBulkGets (cleanPath : QString → QString) (w : BulkGetWorkItem) : GetOut :=
  let p := prepareGetLoop cleanPath w.destination w.urls [] w.bucketName []
  { item := { w with state := JobState.PREPARING, urls := p.urls,
                     bucketName := p.bucketName, objMap := p.objMap }
    events := Event.SetState JobState.PREPARING ::
      (if p.dispatched then [Event.RunDoBulk] else [])
    spawned := if p.dispatched then [GetTask.DoBulkGet] else [] }

/-- The object list `DoBulkGet` builds from the object map (names only). -/
def getBulkObjList (m : ObjMap) : BulkObjectList :=
  m.map fun kv => { name := kv.1, length := 0, offset := 0 }

/-- The function `Client::DoBulkGet` up to its `for` loop. On an error, a missing
response or a response without chunks it just returns: the call of
`DeleteOrRequeueBulkGetWorkItem` is commented out. -/
def DoBulkGet (env : Env) (w : BulkGetWorkItem) : GetOut :=
  let w1 := { w with state := JobState.INPROGRESS }
  let objs := getBulkObjList w1.objMap
  let head := [Event.SetState JobState.INPROGRESS, Event.Bulk w1.bucketName objs]
  match env.ds3_bulk w1.bucketName objs with
  | BulkResult.plan (l :: ls) =>
    { item := w1, events := head, spawned := [GetTask.DoBulkGetLoop (l :: ls)] }
  | _ => { item := w1, events := head, spawned := [] }

/-- One iteration of the `for` loop of `DoBulkGet`. -/
def DoBulkGetLoop (rest : List BulkObjectList) (w : BulkGetWorkItem) : GetOut :=
  match rest with
  | [] => { item := w, events := [], spawned := [] }
  | l :: ls =>
    let w1 := { w with workingObjListCount := w.workingObjListCount + 1 }
    { item := w1
      events := [Event.Inc w1.workingObjListCount, Event.RunList l]
      spawned := GetTask.GetBulkObjectList l ::
        (if ls.isEmpty then [] else [GetTask.DoBulkGetLoop ls]) }

/-- The function `Client::GetBulkObjectList`: one `GetObject` (which only logs)
per entry, then the decrement; the requeue call after it is commented out. -/
def GetBulkObjectList (list : BulkObjectList) (w : BulkGetWorkItem) : GetOut :=
  let gets := list.map fun o =>
    Event.GetObject w.bucketName o.name (GetObjMapValue w.objMap o.name)
  let w1 := { w with workingObjListCount := w.workingObjListCount - 1 }
  { item := w1, events := gets ++ [Event.Dec w1.workingObjListCount], spawned := [] }

/-- A GET job in flight. -/
structure GetSys where
  item : BulkGetWorkItem
  pool : List GetTask
  log : List Event
  deriving DecidableEq, Repr

/-- Running one task of a GET job on the work item. -/
def runGetTask (env : Env) (cleanPath : QString → QString) (t : GetTask)
    (w : BulkGetWorkItem) : GetOut :=
  match t with
  | GetTask.PrepareBulkGets => PrepareBulkGets cleanPath w
  | GetTask.DoBulkGet => DoBulkGet env w
  | GetTask.DoBulkGetLoop rest => DoBulkGetLoop rest w
  | GetTask.GetBulkObjectList list => GetBulkObjectList list w

/-- One step of a run of a GET job: the pending task number `i` runs. -/
def GetSys.step (env : Env) (cleanPath : QString → QString) (s : GetSys) (i : Nat) :
    Option GetSys :=
  match s.pool.get? i with
  | none => none
  | some t =>
    let out := runGetTask env cleanPath t s.item
    some { item := out.item, pool := s.pool.eraseIdx i ++ out.spawned,
           log := s.log ++ out.events }

/-- A run of a GET job along a schedule. -/
def GetSys.exec (env : Env) (cleanPath : QString → QString) :
    GetSys → List Nat → Option GetSys
  | s, [] => some s
  | s, i :: sched => (s.step env cleanPath i).bind fun s' => GetSys.exec env cleanPath s' sched

/-- The function `Client::BulkGet`: a new work item in state `QUEUED`, and
`PrepareBulkGets` handed to the pool. -/
def BulkGet (urls : List DS3URL) (destination : QString) : GetSys :=
  { item := { state := JobState.QUEUED, bucketName := [], destination := destination,
              urls := urls, objMap := [], workingObjListCount := 0 }
    pool := [GetTask.PrepareBulkGets]
    log := [Event.SetState JobState.QUEUED, Event.RunPrepare] }

/-- The negotiation calls in a log: the object list of each, in order. -/
def bulkCalls : List Event → List BulkObjectList
  | [] => []
  | Event.Bulk _ objs :: es => objs :: bulkCalls es
  | _ :: es => bulkCalls es

/-- The states set in a log, in order. -/
def statesSet : List Event → List JobState
  | [] => []
  | Event.SetState s :: es => s :: statesSet es
  | _ :: es => statesSet es

/-- How often an event occurs in a log. -/
def countEvent (e : Event) (log : List Event) : Nat := log.count e

/-! ## Inputs used in the statements below -/

/-- A pattern character that stands for itself. -/
def rxPlain (c : Char) : Bool :=
  !rxUnsupported c && (quantOf c).isNone && !decide (c = '^') && !decide (c = '$')
    && !decide (c = '.')

/-- The name made of `i + 1` letters "a". -/
def aName (i : Nat) : QString := List.replicate (i + 1) 'a'

/-- The directory "/d" holding the `n` plain files "/d/a", "/d/aa", and so on. -/
def dirOfFiles (n : Nat) : LocalUrl :=
  { filePath := ['/', 'd'], isDir := true
    walk := (List.range n).map fun i => ⟨['/', 'd', '/'] ++ aName i, false⟩ }

/-- The `n` plain files "/a", "/aa", and so on. -/
def plainFiles (n : Nat) : List LocalUrl :=
  (List.range n).map fun i => ⟨'/' :: aName i, false, []⟩

/-- The URLs of the `n` objects "a", "aa", and so on, of the bucket "b". -/
def objectUrls (n : Nat) : List DS3URL :=
  (List.range n).map fun i => ⟨['b'], aName i, aName i, false⟩

/-- A service without failures: every negotiation answers with a plan of one
chunk holding the whole request, every put succeeds, every file opens. -/
def calmEnv : Env :=
  { ds3_bulk := fun _ objs => BulkResult.plan [objs]
    ds3_put_object := fun _ _ => false
    isDir := fun _ => false
    size := fun _ => 0
    openFile := fun _ => true }

/-- A service that answers every negotiation with one chunk per requested object. -/
def splitEnv : Env :=
  { calmEnv with ds3_bulk := fun _ objs => BulkResult.plan (objs.map fun o => [o]) }

/-- A service that answers every negotiation with a plan of zero chunks. -/
def emptyPlanEnv : Env :=
  { calmEnv with ds3_bulk := fun _ _ => BulkResult.plan [] }

/-- A service whose negotiation call always reports an error. -/
def failEnv : Env :=
  { calmEnv with ds3_bulk := fun _ _ => BulkResult.error }

/-- The part of a log that concerns the outstanding-chunk counter of a page: the
increments, the chunk tasks started, the decrements, and the page-finished branch. -/
def counterTrace : List Event → List Event
  | [] => []
  | Event.Inc n :: es => Event.Inc n :: counterTrace es
  | Event.Dec n :: es => Event.Dec n :: counterTrace es
  | Event.RunList l :: es => Event.RunList l :: counterTrace es
  | Event.PageFinished :: es => Event.PageFinished :: counterTrace es
  | _ :: es => counterTrace es

/-- The object names of the `PutObject` calls in a log, in order. -/
def putAttempts : List Event → List QString
  | [] => []
  | Event.PutObject _ object _ _ :: es => object :: putAttempts es
  | _ :: es => putAttempts es

/-- The number of `DecWorkingObjListCount` calls in a log. -/
def decCalls : List Event → Nat
  | [] => 0
  | Event.Dec _ :: es => decCalls es + 1
  | _ :: es => decCalls es

/-- The number of chunk tasks started in a log. -/
def listsStarted : List Event → Nat
  | [] => 0
  | Event.RunList _ :: es => listsStarted es + 1
  | _ :: es => listsStarted es

/-- The number of times `PrepareBulkPuts` (or its GET sibling) is handed to the
pool in a log. -/
def prepareRuns : List Event → Nat
  | [] => 0
  | Event.RunPrepare :: es => prepareRuns es + 1
  | _ :: es => prepareRuns es

/-- The directory "/tmp/a+b" holding the one file "/tmp/a+b/x". -/
def plusDir : LocalUrl :=
  { filePath := "/tmp/a+b".toList, isDir := true
    walk := [⟨"/tmp/a+b/x".toList, false⟩] }

/-- The object "a" for the bulk request lists of the examples. -/
def objA : BulkObject := { name := ['a'], length := 0, offset := 0 }

/-- The object "aa" for the bulk request lists of the examples. -/
def objAA : BulkObject := { name := ['a', 'a'], length := 0, offset := 0 }

/-- The PUT work item of the one file "/a" once `PrepareBulkPuts` has built its
page. -/
def putItemA : BulkPutWorkItem :=
  { state := JobState.PREPARING, bucketName := ['b'], pfx := [], urls := [],
    objMap := [(['a'], ['/', 'a'])], dirIterator := none, workingObjListCount := 0,
    deleted := false }

/-- The GET work item of the one object "a" once `PrepareBulkGets` has built its
page. -/
def getItemA : BulkGetWorkItem :=
  { state := JobState.PREPARING, bucketName := ['b'], destination := ['t'], urls := [],
    objMap := [(['a'], ['t', '/', 'a'])], workingObjListCount := 0 }

/-- A run in which the pool always runs the task handed to it last, for at most
`fuel` steps or until no task is pending. In such a run the dispatch loop of
`DoBulkPut` starts every chunk of a page before one of them completes, and a page
is complete before the next one is prepared. -/
def PutSys.runLifo (env : Env) : Nat → PutSys → Option PutSys
  | 0, s => some s
  | fuel + 1, s =>
    if s.pool.isEmpty then some s
    else (s.step env (s.pool.length - 1)).bind (PutSys.runLifo env fuel)

/-- The tasks of a GET job that lead to a negotiation call: `PrepareBulkGets` may
dispatch `DoBulkGet`, which makes the call. -/
def GetTask.callsAhead : GetTask → Nat
  | GetTask.PrepareBulkGets => 1
  | GetTask.DoBulkGet => 1
  | _ => 0

/-! ## The job list (`JobsView` of `src/views/jobs_view.cc`) -/

/-- Modelled from the spec: the class `Job` is not among the sources. A job-state
snapshot as pushed with `JobProgressUpdate`: the job id (a `QUuid`, here a number),
the state, and what a view displays of it. -/
structure Job where
  id : Nat
  state : JobState
  host : QString
  size : Nat
  bytesTransferred : Nat
  deriving DecidableEq, Repr

/-- Modelled from the spec: `Job::IsFinished`, the snapshot is in state FINISHED. -/
def Job.IsFinished (job : Job) : Bool := decide (job.state = JobState.FINISHED)

/-- A `JobView` widget, as the snapshot it displays: `JobView::Update(job)` sets
every label and the progress bar from the snapshot. -/
structure JobView where
  shown : Job
  deriving DecidableEq, Repr

/-- The function `JobView::Update`. -/
def JobView.Update (_ : JobView) (job : Job) : JobView := { shown := job }

/-- The state of a `JobsView`: the registry `m_jobViews` (`QHash<QUuid, JobView*>`,
an association list) and the widgets of `m_layout`, in order, each named by the job
id it was created for. -/
structure JobsView where
  m_jobViews : List (Nat × JobView)
  m_layout : List Nat
  deriving DecidableEq, Repr

/-- The view a `QHash<QUuid, JobView*>` holds under a job id, if any. -/
def viewIn : List (Nat × JobView) → Nat → Option JobView
  | [], _ => none
  | (k, w) :: l, jobID => if k = jobID then some w else viewIn l jobID

/-- The call `QHash::remove(jobID)`: every item with that key goes. -/
def removeViews : List (Nat × JobView) → Nat → List (Nat × JobView)
  | [], _ => []
  | (k, w) :: l, jobID =>
    if k = jobID then removeViews l jobID else (k, w) :: removeViews l jobID

/-- The call `jobView->Update(job)` on the view registered under the job id: the
widget changes in place. -/
def updateViews : List (Nat × JobView) → Nat → Job → List (Nat × JobView)
  | [], _, _ => []
  | (k, w) :: l, jobID, job =>
    if k = jobID then (k, w.Update job) :: updateViews l jobID job
    else (k, w) :: updateViews l jobID job

/-- The view registered under a job id (`m_jobViews.contains(jobID)` is whether
there is one, `m_jobViews[jobID]` the view). -/
def JobsView.view (v : JobsView) (jobID : Nat) : Option JobView := viewIn v.m_jobViews jobID

/-- The number of views registered under a job id. -/
def JobsView.viewCount (v : JobsView) (jobID : Nat) : Nat :=
  (v.m_jobViews.filter fun kv => decide (kv.1 = jobID)).length

/-- The function `JobsView::UpdateJob` (between `m_jobsLock.lock()` and
`m_jobsLock.unlock()`). -/
def JobsView.UpdateJob (v : JobsView) (job : Job) : JobsView :=
  let jobID := job.id
  match v.view jobID with
  | some _ =>
    if job.IsFinished then
      { m_layout := v.m_layout.erase jobID
        m_jobViews := removeViews v.m_jobViews jobID }
    else
      { v with m_jobViews := updateViews v.m_jobViews jobID job }
  | none =>
    { m_jobViews := v.m_jobViews ++ [(jobID, { shown := job })]
      m_layout := v.m_layout ++ [jobID] }

/-- A FINISHED snapshot of the job with id 7. -/
def finishedJob7 : Job :=
  { id := 7, state := JobState.FINISHED, host := ['h'], size := 10, bytesTransferred := 10 }

/-- An INPROGRESS snapshot of the job with id 7. -/
def runningJob7 : Job :=
  { id := 7, state := JobState.INPROGRESS, host := ['h'], size := 10, bytesTransferred := 5 }

/-- The negotiation calls in a log: the bucket name and the object names of each,
in order. -/
def bulkRequests : List Event → List (QString × List QString)
  | [] => []
  | Event.Bulk bucket objs :: es => (bucket, objs.map fun o => o.name) :: bulkRequests es
  | _ :: es => bulkRequests es

/-- The URLs of the object "o1" of the bucket "b1" and of the object "o2" of the
bucket "b2". -/
def twoBucketUrls : List DS3URL :=
  [ { bucketName := "b1".toList, objectName := "o1".toList, lastPathPart := "o1".toList,
      isBucketOrFolder := false },
    { bucketName := "b2".toList, objectName := "o2".toList, lastPathPart := "o2".toList,
      isBucketOrFolder := false } ]

/-! ## Pages of a PUT job and the uninterrupted expansion of its sources -/

/-- The directory "/tmp/ab" holding the file "x", the directory "y" and the file
"y/z". -/
def abDir : LocalUrl :=
  { filePath := "/tmp/ab".toList, isDir := true
    walk := [⟨"/tmp/ab/x".toList, false⟩, ⟨"/tmp/ab/y".toList, true⟩,
             ⟨"/tmp/ab/y/z".toList, false⟩] }

theorem rxParse_slashDollar :
    rxParse ['/', '$'] = some [RxItem.atom (RxAtom.lit '/') RxQuant.one, RxItem.dollar] := by
  decide

theorem matchHere_slashDollar (z : Bool) (s : QString) :
    matchHere [RxItem.atom (RxAtom.lit '/') RxQuant.one, RxItem.dollar] z s
      = if s = ['/'] then some 1 else none := by
  cases s with
  | nil => simp [matchHere]
  | cons c t =>
    cases t with
    | nil =>
      by_cases h : c = '/'
      · subst h; simp [matchHere, RxAtom.ok]
      · have h' : ¬ ('/' = c) := fun e => h e.symm
        simp [matchHere, RxAtom.ok, h, h']
    | cons d t => simp [matchHere, RxAtom.ok]

theorem replaceGo_slashDollar_snoc (z : Bool) (t : QString) :
    replaceGo [RxItem.atom (RxAtom.lit '/') RxQuant.one, RxItem.dollar] [] 0 z (t ++ ['/']) = t := by
  induction t generalizing z with
  | nil => simp [replaceGo, matchHere_slashDollar]
  | cons c t ih =>
    have h : ¬ (c :: (t ++ ['/']) = ['/']) := by simp
    show replaceGo _ [] 0 z (c :: (t ++ ['/'])) = c :: t
    rw [replaceGo, matchHere_slashDollar, if_neg h]
    simp only [ih]

theorem replaceGo_slashDollar_other (z : Bool) (s : QString) (h : ¬ DELIMITER <:+ s) :
    replaceGo [RxItem.atom (RxAtom.lit '/') RxQuant.one, RxItem.dollar] [] 0 z s = s := by
  induction s generalizing z with
  | nil => simp [replaceGo, matchHere_slashDollar]
  | cons c t ih =>
    have h1 : ¬ (c :: t = ['/']) := by
      intro e; apply h; rw [e]; exact List.suffix_refl _
    have h2 : ¬ DELIMITER <:+ t := fun e => h (List.IsSuffix.trans e (List.suffix_cons c t))
    rw [replaceGo, matchHere_slashDollar, if_neg h1]
    simp only [ih false h2]

theorem normPrefix_snoc (t : QString) : normPrefix (t ++ ['/']) = some (t ++ ['/']) := by
  simp [normPrefix, QString.replace, rxParse_slashDollar, replaceGo_slashDollar_snoc]

theorem normPrefix_other (p : QString) (h0 : p ≠ []) (h : ¬ DELIMITER <:+ p) :
    normPrefix p = some (p ++ ['/']) := by
  simp [normPrefix, QString.replace, rxParse_slashDollar, replaceGo_slashDollar_other _ _ h, h0]

/-- C9: the normalized prefix of `PrepareBulkPuts` is the prefix with one trailing
"/" stripped and "/" appended again: empty for the empty prefix, the prefix itself
when it ends with "/", the prefix followed by "/" otherwise; a normalized prefix
that is not empty ends with "/", and normalizing it again changes nothing. -/
theorem C9_normPrefix (p : QString) :
    ∃ q, normPrefix p = some q ∧
      (p = [] → q = []) ∧
      (DELIMITER <:+ p → q = p) ∧
      (p ≠ [] ∧ ¬ DELIMITER <:+ p → q = p ++ DELIMITER) ∧
      (q ≠ [] → DELIMITER <:+ q) ∧
      normPrefix q = some q := by
  by_cases h0 : p = []
  · subst h0
    refine ⟨[], by simp [normPrefix], fun _ => rfl, ?_, ?_, ?_, by simp [normPrefix]⟩
    · intro h; simp [DELIMITER] at h
    · intro h; exact absurd rfl h.1
    · intro h; exact absurd rfl h
  · by_cases h : DELIMITER <:+ p
    · obtain ⟨t, ht⟩ := h
      subst ht
      refine ⟨t ++ DELIMITER, normPrefix_snoc t, fun e => absurd e h0, fun _ => rfl, ?_,
        fun _ => ⟨t, rfl⟩, normPrefix_snoc t⟩
      intro h'; exact absurd ⟨t, rfl⟩ h'.2
    · refine ⟨p ++ DELIMITER, normPrefix_other p h0 h, fun e => absurd e h0,
        fun e => absurd e h, fun _ => rfl, fun _ => ⟨p, rfl⟩, normPrefix_snoc p⟩

theorem rxStep_plain (c : Char) (h : rxPlain c = true) (items : List RxItem) :
    rxStep c (some (items, none))
      = some (RxItem.atom (RxAtom.lit c) RxQuant.one :: items, none) := by
  simp only [rxPlain, Bool.and_eq_true, Bool.not_eq_true', decide_eq_false_iff_not,
    Option.isNone_iff_eq_none] at h
  obtain ⟨⟨⟨⟨h1, h2⟩, h3⟩, h4⟩, h5⟩ := h
  simp [rxStep, h1, h2, h3, h4, h5]

theorem foldr_rxStep_plain (P : QString) (h : ∀ c ∈ P, rxPlain c = true) :
    P.foldr rxStep (some ([], none))
      = some (P.map (fun c => RxItem.atom (RxAtom.lit c) RxQuant.one), none) := by
  induction P with
  | nil => rfl
  | cons c P ih =>
    rw [List.foldr_cons, ih (fun d hd => h d (List.mem_cons_of_mem _ hd)),
      rxStep_plain c (h c (List.mem_cons_self _ _))]
    rfl

theorem rxParse_caret_plain (P : QString) (h : ∀ c ∈ P, rxPlain c = true) :
    rxParse ('^' :: P)
      = some (RxItem.caret :: P.map (fun c => RxItem.atom (RxAtom.lit c) RxQuant.one)) := by
  simp [rxParse, foldr_rxStep_plain P h, rxStep, rxUnsupported, quantOf]

theorem matchHere_lits (P : QString) (z : Bool) (s : QString) :
    matchHere (P.map (fun c => RxItem.atom (RxAtom.lit c) RxQuant.one)) z (P ++ s)
      = some P.length := by
  induction P generalizing z with
  | nil => simp [matchHere]
  | cons c P ih => simp [matchHere, RxAtom.ok, ih]

theorem replaceGo_caret_later (items : List RxItem) (after s : QString) :
    replaceGo (RxItem.caret :: items) after 0 false s = s := by
  induction s with
  | nil => simp [replaceGo, matchHere]
  | cons c s ih => simp [replaceGo, matchHere, ih]

theorem replaceGo_skip (items : List RxItem) (after P s : QString) :
    replaceGo items after P.length false (P ++ s) = replaceGo items after 0 false s := by
  induction P with
  | nil => rfl
  | cons c P ih => simpa [replaceGo] using ih

theorem replace_caret_plain (P s : QString) (hP : P ≠ []) (h : ∀ c ∈ P, rxPlain c = true) :
    QString.replace (P ++ s) ('^' :: P) [] = some s := by
  cases P with
  | nil => exact absurd rfl hP
  | cons c P =>
    simp only [QString.replace, rxParse_caret_plain _ h, Option.map_some', Option.some.injEq]
    have hm : matchHere (RxItem.caret ::
        (c :: P).map (fun c => RxItem.atom (RxAtom.lit c) RxQuant.one)) true (c :: (P ++ s))
        = some (P.length + 1) := by
      have := matchHere_lits (c :: P) true s
      simpa [matchHere] using this
    show replaceGo _ [] 0 true (c :: (P ++ s)) = s
    rw [replaceGo, hm]
    simp only [List.nil_append]
    rw [replaceGo_skip, replaceGo_caret_later]

theorem rxPlain_slash : rxPlain '/' = true := by decide

/-- The relative name of a directory entry, for a root path of plain characters. -/
theorem subObjName_plain (objName R p : QString) (isDir : Bool)
    (h : ∀ c ∈ R, rxPlain c = true) :
    subObjName objName R ⟨R ++ ['/'] ++ p, isDir⟩
      = some (if isDir then objName ++ p ++ ['/'] else objName ++ p) := by
  have hP : ∀ c ∈ R ++ ['/'], rxPlain c = true := by
    intro c hc
    rcases List.mem_append.1 hc with hc | hc
    · exact h c hc
    · rw [List.mem_singleton.1 hc]; exact rxPlain_slash
  have := replace_caret_plain (R ++ ['/']) p (by simp) hP
  simp only [subObjName]
  rw [show (['^'] ++ R ++ ['/'] : QString) = '^' :: (R ++ ['/']) by simp, this]
  rfl

theorem takeWhile_append_stop {α : Type} (p : α → Bool) (l : List α) (a : α) (r : List α)
    (hl : ∀ x ∈ l, p x = true) (ha : p a = false) :
    (l ++ a :: r).takeWhile p = l := by
  induction l with
  | nil => simp [List.takeWhile, ha]
  | cons x l ih =>
    have hx := hl x (List.mem_cons_self _ _)
    simp [List.takeWhile, hx, ih (fun y hy => hl y (List.mem_cons_of_mem _ hy))]

theorem fileName_last (R d : QString) (hd : '/' ∉ d) : fileName (R ++ '/' :: d) = d := by
  unfold fileName
  have : (R ++ '/' :: d).reverse = d.reverse ++ '/' :: R.reverse := by simp
  rw [this, takeWhile_append_stop]
  · simp
  · intro x hx
    have : x ≠ '/' := fun e => hd (e ▸ List.mem_reverse.1 hx)
    simpa using this
  · simp

/-! ## Lemmas on the object map -/

theorem length_InsertObjMap_le (m : ObjMap) (k v : QString) :
    (InsertObjMap m k v).length ≤ m.length + 1 := by
  induction m with
  | nil => simp [InsertObjMap]
  | cons kv m ih =>
    obtain ⟨k', v'⟩ := kv
    by_cases h : k' = k <;> simp [InsertObjMap, h]
    omega

theorem InsertObjMap_fresh (m : ObjMap) (k v : QString) (h : k ∉ m.map Prod.fst) :
    InsertObjMap m k v = m ++ [(k, v)] := by
  induction m with
  | nil => rfl
  | cons kv m ih =>
    obtain ⟨k', v'⟩ := kv
    have h1 : ¬ k' = k := fun e => h (by simp [e])
    have h2 : k ∉ m.map Prod.fst := fun e => h (by simp at e ⊢; exact Or.inr e)
    simp [InsertObjMap, h1, ih h2]

/-! ## Lemmas on `PrepareBulkPuts` -/

theorem BULK_PAGE_LIMIT_pos : 0 < BULK_PAGE_LIMIT := by decide

theorem walkDir_size (o f : QString) (es : List DirEntry) (m m' : ObjMap)
    (r : Option (List DirEntry)) (hm : m.length ≤ BULK_PAGE_LIMIT)
    (h : walkDir o f es m = some (m', r)) : m'.length ≤ BULK_PAGE_LIMIT := by
  induction es generalizing m with
  | nil => simp [walkDir] at h; rw [← h.1]; exact hm
  | cons e es ih =>
    rw [walkDir] at h
    by_cases hs : GetObjMapSize m ≥ BULK_PAGE_LIMIT
    · simp [hs] at h; rw [← h.1]; exact hm
    · rw [if_neg hs] at h
      cases hk : subObjName o f e with
      | none => simp [hk] at h
      | some key =>
        simp only [hk] at h
        refine ih _ ?_ h
        have := length_InsertObjMap_le m key e.subFilePath
        simp only [GetObjMapSize] at hs
        omega

theorem prepareLoop_size (np : QString) (us : List LocalUrl) (di : Option (List DirEntry))
    (m : ObjMap) (p : Prepared) (hm : m.length ≤ BULK_PAGE_LIMIT + 1)
    (h : prepareLoop np us di m = some p) : p.objMap.length ≤ BULK_PAGE_LIMIT + 1 := by
  induction us generalizing di m with
  | nil => simp [prepareLoop] at h; rw [← h]; exact hm
  | cons u us ih =>
    rw [prepareLoop] at h
    by_cases hs : GetObjMapSize m ≥ BULK_PAGE_LIMIT
    · simp [hs] at h; rw [← h]; exact hm
    · rw [if_neg hs] at h
      simp only [GetObjMapSize] at hs
      by_cases hd : u.isDir = true
      · simp only [hd, if_true] at h
        split at h
        · exact absurd h (by simp)
        · rename_i m' rest hw
          have hm' := walkDir_size _ _ _ _ _ _ (by omega) hw
          simp only [Option.some.injEq] at h
          rw [← h]; simp only; omega
        · rename_i m' hw
          have hm' := walkDir_size _ _ _ _ _ _ (by omega) hw
          refine ih _ _ ?_ h
          have := length_InsertObjMap_le m' (np ++ fileName u.filePath ++ ['/']) u.filePath
          omega
      · simp only [hd] at h
        refine ih di (InsertObjMap m (np ++ fileName u.filePath) u.filePath) ?_ ?_
        · have := length_InsertObjMap_le m (np ++ fileName u.filePath) u.filePath
          omega
        · simpa using h

theorem walkDir_fresh (o f : QString) (key : DirEntry → QString) (es : List DirEntry)
    (m : ObjMap) (hk : ∀ e ∈ es, subObjName o f e = some (key e))
    (hn : (m.map Prod.fst ++ es.map key).Nodup)
    (hl : m.length + es.length ≤ BULK_PAGE_LIMIT) :
    walkDir o f es m = some (m ++ es.map (fun e => (key e, e.subFilePath)), none) := by
  induction es generalizing m with
  | nil => simp [walkDir]
  | cons e es ih =>
    have hs : ¬ GetObjMapSize m ≥ BULK_PAGE_LIMIT := by
      simp only [GetObjMapSize, List.length_cons] at hl ⊢; omega
    have hfresh : key e ∉ m.map Prod.fst := by
      intro hmem
      have := List.nodup_append.1 hn
      exact this.2.2 hmem (by simp)
    rw [walkDir, if_neg hs, hk e (List.mem_cons_self _ _)]
    simp only [InsertObjMap_fresh m _ _ hfresh]
    rw [ih (m ++ [(key e, e.subFilePath)]) (fun e' he' => hk e' (List.mem_cons_of_mem _ he'))]
    · simp
    · simpa using hn
    · simp only [List.length_append, List.length_cons, List.length_nil] at hl ⊢; omega

theorem prepareLoop_files (np : QString) (us : List LocalUrl) (di : Option (List DirEntry))
    (m : ObjMap) (hf : ∀ u ∈ us, u.isDir = false)
    (hn : (m.map Prod.fst ++ us.map (fun u => np ++ fileName u.filePath)).Nodup)
    (hm : m.length ≤ BULK_PAGE_LIMIT) :
    prepareLoop np us di m = some
      { urls := us.drop (BULK_PAGE_LIMIT - m.length), dirIterator := di,
        objMap := m ++ (us.take (BULK_PAGE_LIMIT - m.length)).map
          (fun u => (np ++ fileName u.filePath, u.filePath)),
        dispatched := decide (0 < m.length + us.length) } := by
  induction us generalizing m with
  | nil => simp [prepareLoop, GetObjMapSize]
  | cons u us ih =>
    rw [prepareLoop]
    by_cases hs : GetObjMapSize m ≥ BULK_PAGE_LIMIT
    · simp only [GetObjMapSize] at hs
      have : BULK_PAGE_LIMIT - m.length = 0 := by omega
      simp [hs, this, GetObjMapSize]
    · rw [if_neg hs]
      simp only [GetObjMapSize] at hs
      have hu : u.isDir = false := hf u (List.mem_cons_self _ _)
      have hfresh : np ++ fileName u.filePath ∉ m.map Prod.fst := by
        intro hmem
        have := List.nodup_append.1 hn
        exact this.2.2 hmem (by simp)
      simp only [hu, Bool.false_eq_true, if_false, InsertObjMap_fresh m _ _ hfresh]
      rw [ih (m ++ [(np ++ fileName u.filePath, u.filePath)])
        (fun u' hu' => hf u' (List.mem_cons_of_mem _ hu'))]
      · obtain ⟨k, hk⟩ : ∃ k, BULK_PAGE_LIMIT - m.length = k + 1 := ⟨BULK_PAGE_LIMIT - m.length - 1, by omega⟩
        have hk' : BULK_PAGE_LIMIT - (m ++ [(np ++ fileName u.filePath, u.filePath)]).length = k := by
          simp only [List.length_append, List.length_cons, List.length_nil]; omega
        rw [hk, hk']
        simp
      · simpa using hn
      · simp only [List.length_append, List.length_cons, List.length_nil]; omega

theorem prepareGetLoop_objects (cleanPath : QString → QString) (dest b : QString)
    (us : List DS3URL) (prev bn : QString) (m : ObjMap)
    (hb : ∀ u ∈ us, u.bucketName = b ∧ u.isBucketOrFolder = false)
    (hp : prev = [] ∨ prev = b)
    (hn : (m.map Prod.fst ++ us.map (fun u => u.objectName)).Nodup)
    (hm : m.length ≤ BULK_PAGE_LIMIT) :
    prepareGetLoop cleanPath dest us prev bn m =
      { urls := us.drop (BULK_PAGE_LIMIT - m.length),
        bucketName := if us.isEmpty then bn else b,
        objMap := m ++ (us.take (BULK_PAGE_LIMIT - m.length)).map
          (fun u => (u.objectName, cleanPath (dest ++ ['/'] ++ u.lastPathPart))),
        dispatched := decide (0 < m.length + us.length) } := by
  induction us generalizing m prev bn with
  | nil => simp [prepareGetLoop, GetObjMapSize]
  | cons u us ih =>
    obtain ⟨hub, huf⟩ := hb u (List.mem_cons_self _ _)
    have hprev : ¬ (¬ prev.isEmpty = true ∧ prev ≠ u.bucketName) := by
      rcases hp with hp | hp
      · subst hp; simp
      · rw [hub, hp]; simp
    rw [prepareGetLoop]
    by_cases hs : GetObjMapSize m ≥ BULK_PAGE_LIMIT
    · simp only [GetObjMapSize] at hs
      have : BULK_PAGE_LIMIT - m.length = 0 := by omega
      simp [hs, this, GetObjMapSize, hub]
    · have hc : ¬ (GetObjMapSize m ≥ BULK_PAGE_LIMIT ∨
          (¬ prev.isEmpty = true ∧ prev ≠ u.bucketName)) := by
        intro h; rcases h with h | h
        · exact hs h
        · exact hprev h
      rw [if_neg hc]
      simp only [GetObjMapSize] at hs
      have hfresh : u.objectName ∉ m.map Prod.fst := by
        intro hmem
        have := List.nodup_append.1 hn
        exact this.2.2 hmem (by simp)
      simp only [huf, Bool.false_eq_true, if_false, InsertObjMap_fresh m _ _ hfresh]
      rw [ih (u.bucketName) (u.bucketName) (m ++ [(u.objectName, cleanPath (dest ++ ['/'] ++ u.lastPathPart))])
        (fun u' hu' => hb u' (List.mem_cons_of_mem _ hu')) (Or.inr hub)]
      · obtain ⟨k, hk⟩ : ∃ k, BULK_PAGE_LIMIT - m.length = k + 1 := ⟨BULK_PAGE_LIMIT - m.length - 1, by omega⟩
        have hk' : BULK_PAGE_LIMIT - (m ++ [(u.objectName, cleanPath (dest ++ ['/'] ++ u.lastPathPart))]).length = k := by
          simp only [List.length_append, List.length_cons, List.length_nil]; omega
        rw [hk, hk']
        simp [hub]
      · simpa using hn
      · simp only [List.length_append, List.length_cons, List.length_nil]; omega

/-! ## The inputs of the statements -/

theorem aName_injective : Function.Injective aName := by
  intro i j h
  have := congrArg List.length h
  simpa [aName] using this

theorem slash_not_mem_aName (i : Nat) : '/' ∉ aName i := by
  simp [aName]

theorem nodup_map_aName (pre : QString) (n : Nat) :
    ((List.range n).map (fun i => pre ++ aName i)).Nodup := by
  refine List.Nodup.map ?_ (List.nodup_range n)
  intro i j h
  exact aName_injective (List.append_cancel_left h)

theorem plainFiles_keys (np : QString) (n : Nat) :
    (plainFiles n).map (fun u => np ++ fileName u.filePath)
      = (List.range n).map (fun i => np ++ aName i) := by
  simp only [plainFiles, List.map_map]
  apply List.map_congr_left
  intro i _
  have := fileName_last [] (aName i) (slash_not_mem_aName i)
  simpa using this

theorem plainFiles_nodup (np : QString) (n : Nat) :
    ((plainFiles n).map (fun u => np ++ fileName u.filePath)).Nodup := by
  rw [plainFiles_keys]; exact nodup_map_aName np n

theorem plainFiles_isDir (n : Nat) : ∀ u ∈ plainFiles n, u.isDir = false := by
  intro u hu
  simp only [plainFiles, List.mem_map] at hu
  obtain ⟨i, _, rfl⟩ := hu
  rfl

theorem length_plainFiles (n : Nat) : (plainFiles n).length = n := by simp [plainFiles]

theorem objectUrls_spec (n : Nat) :
    ∀ u ∈ objectUrls n, u.bucketName = ['b'] ∧ u.isBucketOrFolder = false := by
  intro u hu
  simp only [objectUrls, List.mem_map] at hu
  obtain ⟨i, _, rfl⟩ := hu
  exact ⟨rfl, rfl⟩

theorem objectUrls_nodup (n : Nat) : ((objectUrls n).map (fun u => u.objectName)).Nodup := by
  have := nodup_map_aName [] n
  simpa [objectUrls, List.map_map, Function.comp] using this

theorem length_objectUrls (n : Nat) : (objectUrls n).length = n := by simp [objectUrls]

/-- The walk over the directory of `n ≤ BULK_PAGE_LIMIT` files ends with `n + 1`
keys in the object map: the `n` files and the directory itself. -/
theorem prepareLoop_dirOfFiles (n : Nat) (hn : n ≤ BULK_PAGE_LIMIT) :
    prepareLoop [] [dirOfFiles n] none [] = some
      { urls := [], dirIterator := none,
        objMap := (List.range n).map (fun i => (['d', '/'] ++ aName i, ['/', 'd', '/'] ++ aName i))
          ++ [(['d', '/'], ['/', 'd'])],
        dispatched := true } := by
  have hfn : fileName (dirOfFiles n).filePath = ['d'] := by
    show fileName ['/', 'd'] = ['d']
    decide
  have hw : walkDir ['d', '/'] ['/', 'd'] (dirOfFiles n).walk []
      = some ([] ++ (dirOfFiles n).walk.map
          (fun e => ((['d', '/'] ++ e.subFilePath.drop 3 : QString), e.subFilePath)), none) := by
    apply walkDir_fresh
    · intro e he
      simp only [dirOfFiles, List.mem_map] at he
      obtain ⟨i, _, rfl⟩ := he
      have := subObjName_plain ['d', '/'] ['/', 'd'] (aName i) false (by decide)
      simpa using this
    · simp only [dirOfFiles, List.map_nil, List.nil_append, List.map_map]
      have := nodup_map_aName ['d', '/'] n
      refine (List.map_congr_left ?_).symm ▸ this
      intro i _
      simp
    · simp [dirOfFiles]; exact hn
  have hs : ¬ GetObjMapSize ([] : ObjMap) ≥ BULK_PAGE_LIMIT := by
    have := BULK_PAGE_LIMIT_pos
    simp [GetObjMapSize]; omega
  rw [prepareLoop, if_neg hs]
  have hd : (dirOfFiles n).isDir = true := rfl
  simp only [hd, if_true, hfn, Option.getD_none, List.nil_append]
  have hw' : walkDir (['d'] ++ ['/']) (dirOfFiles n).filePath (dirOfFiles n).walk [] = _ := hw
  rw [hw']
  simp only [List.nil_append]
  rw [InsertObjMap_fresh]
  · simp [prepareLoop, GetObjMapSize, dirOfFiles, List.map_map, Function.comp]
  · simp [dirOfFiles, List.map_map, Function.comp, aName]

/-! ## C1: the size of a page -/

theorem page_of_dirOfFiles (n : Nat) (hn : n ≤ BULK_PAGE_LIMIT) :
    (PutSys.exec calmEnv (BulkPut ['b'] [] [dirOfFiles n]) [0, 0]).map
      (fun s => (bulkCalls s.log).map List.length) = some [n + 1] := by
  simp [PutSys.exec, PutSys.step, BulkPut, runPutTask, PrepareBulkPuts, normPrefix,
    prepareLoop_dirOfFiles n hn, DoBulkPut, calmEnv, bulkCalls, putBulkObjList]

/-- C1 (the code breaks it): a PUT job whose only source is a directory of exactly
`BULK_PAGE_LIMIT` files hands `DoBulkPut` an object map of `BULK_PAGE_LIMIT + 1`
entries, and the negotiation call carries that many objects: the walk fills the
page up to the limit, and the key of the directory itself is inserted after the
walk without a check. -/
theorem C1_page_over_limit :
    (PutSys.exec calmEnv (BulkPut ['b'] [] [dirOfFiles BULK_PAGE_LIMIT]) [0, 0]).map
      (fun s => (bulkCalls s.log).map List.length) = some [BULK_PAGE_LIMIT + 1] :=
  page_of_dirOfFiles BULK_PAGE_LIMIT (Nat.le_refl _)

/-! ## C3, C4, C8: the outstanding-chunk counter and the dispatch loop -/

/-- Whatever the plan, the first iteration of the dispatch loop starts the first
chunk with the counter raised by one, not by the number of chunks. -/
theorem DoBulkPutLoop_first (l : BulkObjectList) (ls : List BulkObjectList)
    (w : BulkPutWorkItem) :
    (DoBulkPutLoop (l :: ls) w).item.workingObjListCount = w.workingObjListCount + 1 ∧
    PutTask.PutBulkObjectList l ∈ (DoBulkPutLoop (l :: ls) w).spawned :=
  ⟨rfl, by simp [DoBulkPutLoop]⟩

/-- C3 (the code breaks it): a PUT of the two files "/a" and "/aa" whose
negotiation answers with a plan of 2 chunks. When `DoBulkPut` has started the
first chunk task, the outstanding-chunk counter is 1, not 2: the loop increments
it once per chunk, right before it starts that chunk, and the second chunk is
still to be started. `DoBulkGet` does the same for the two objects "a" and "aa". -/
theorem C3_counter_is_one_at_first_chunk :
    (PutSys.exec splitEnv (BulkPut ['b'] [] (plainFiles 2)) [0, 0, 0]).map
        (fun s => (s.item.workingObjListCount, s.pool, counterTrace s.log))
      = some (1, [PutTask.PutBulkObjectList [objA], PutTask.DoBulkPutLoop [[objAA]]],
          [Event.Inc 1, Event.RunList [objA]])
    ∧ (GetSys.exec splitEnv id (BulkGet (objectUrls 2) ['t']) [0, 0, 0]).map
        (fun s => (s.item.workingObjListCount, s.pool, counterTrace s.log))
      = some (1, [GetTask.GetBulkObjectList [objA], GetTask.DoBulkGetLoop [[objAA]]],
          [Event.Inc 1, Event.RunList [objA]]) := by
  constructor <;> decide

/-- C4 (the code breaks it): the same PUT job, in the run where the first chunk
task completes before the dispatch loop starts the second one. The page-finished
branch of `DeleteOrRequeueBulkPutWorkItem` is taken twice, the first time after a
single decrement although the plan has 2 chunks. -/
theorem C4_page_finished_twice :
    (PutSys.exec splitEnv (BulkPut ['b'] [] (plainFiles 2)) [0, 0, 0, 0, 0, 0]).map
        (fun s => (counterTrace s.log, s.pool))
      = some ([Event.Inc 1, Event.RunList [objA], Event.Dec 0, Event.PageFinished,
               Event.Inc 1, Event.RunList [objAA], Event.Dec 0, Event.PageFinished], []) := by
  decide

/-- The same PUT job in the run where the dispatch loop starts both chunks before
the first one completes: the page-finished branch is taken once, after both
decrements, and the states set are QUEUED, PREPARING, INPROGRESS, FINISHED. -/
theorem two_chunks_started_first :
    (PutSys.exec splitEnv (BulkPut ['b'] [] (plainFiles 2)) [0, 0, 0, 1, 0, 0]).map
        (fun s => (counterTrace s.log, statesSet s.log, s.pool))
      = some ([Event.Inc 1, Event.RunList [objA], Event.Inc 2, Event.RunList [objAA],
               Event.Dec 1, Event.Dec 0, Event.PageFinished],
              [JobState.QUEUED, JobState.PREPARING, JobState.INPROGRESS, JobState.FINISHED],
              []) := by
  decide

/-- C8 (the code breaks it): in that run the states set on the work item are
QUEUED, PREPARING, INPROGRESS, FINISHED, FINISHED: the job is set FINISHED (and
deleted) when the first chunk completes, and set FINISHED again when the second
one does. -/
theorem C8_finished_set_twice :
    (PutSys.exec splitEnv (BulkPut ['b'] [] (plainFiles 2)) [0, 0, 0, 0, 0, 0]).map
        (fun s => statesSet s.log)
      = some [JobState.QUEUED, JobState.PREPARING, JobState.INPROGRESS,
              JobState.FINISHED, JobState.FINISHED] := by
  decide

/-! ## C10: the object names of directory entries -/

/-- C10 (the code breaks it): for the directory "/tmp/a+b" with the file
"/tmp/a+b/x" and an empty prefix, the file's object key is "a+b//tmp/a+b/x" and
not "a+b/x": the root path goes into the `QRegExp` unescaped, "a+b" there means
one or more "a" followed by "b", the pattern does not match and nothing is cut
off the entry's path. -/
theorem C10_unescaped_root_path :
    (PrepareBulkPuts (BulkPut ['b'] [] [plusDir]).item).map (fun o => o.item.objMap)
      = some [("a+b//tmp/a+b/x".toList, "/tmp/a+b/x".toList),
              ("a+b/".toList, "/tmp/a+b".toList)] := by
  decide

/-! ## C5, C6: a negotiation without chunks, a negotiation that fails -/

theorem putItemA_prepared :
    (PrepareBulkPuts (BulkPut ['b'] [] (plainFiles 1)).item).map (fun o => o.item)
      = some putItemA := by
  decide

theorem getItemA_prepared :
    (PrepareBulkGets id (BulkGet (objectUrls 1) ['t']).item).item = getItemA := by
  decide

/-- What `DoBulkPut` does when the negotiation gives no chunk to run (an error, or
a plan of zero chunks) and no chunk is outstanding. -/
theorem DoBulkPut_no_chunks (env : Env) (w : BulkPutWorkItem) (r : BulkResult)
    (hc : w.workingObjListCount = 0)
    (hr : env.ds3_bulk w.bucketName (putBulkObjList env w.objMap) = r)
    (h : r = BulkResult.error ∨ r = BulkResult.plan []) :
    DoBulkPut env w =
      if w.IsFinished then
        { item := { w with state := JobState.FINISHED, deleted := true }
          events := [Event.SetState JobState.INPROGRESS,
            Event.Bulk w.bucketName (putBulkObjList env w.objMap), Event.PageFinished,
            Event.SetState JobState.FINISHED, Event.Delete]
          spawned := [] }
      else
        { item := { w with state := JobState.INPROGRESS }
          events := [Event.SetState JobState.INPROGRESS,
            Event.Bulk w.bucketName (putBulkObjList env w.objMap), Event.PageFinished,
            Event.RunPrepare]
          spawned := [PutTask.PrepareBulkPuts] } := by
  have hpf : BulkPutWorkItem.IsPageFinished { w with state := JobState.INPROGRESS } = true := by
    simp [BulkPutWorkItem.IsPageFinished, hc]
  have hfin : BulkPutWorkItem.IsFinished { w with state := JobState.INPROGRESS }
      = w.IsFinished := rfl
  rcases h with h | h <;> subst h <;>
    by_cases hf : w.IsFinished = true <;>
    simp [DoBulkPut, hr, DeleteOrRequeueBulkPutWorkItem, hpf, hfin, hf]

/-- What `DoBulkGet` does when the negotiation gives no chunk to run. -/
theorem DoBulkGet_no_chunks (env : Env) (g : BulkGetWorkItem) (r : BulkResult)
    (hr : env.ds3_bulk g.bucketName (getBulkObjList g.objMap) = r)
    (h : r = BulkResult.error ∨ r = BulkResult.plan []) :
    DoBulkGet env g =
      { item := { g with state := JobState.INPROGRESS }
        events := [Event.SetState JobState.INPROGRESS,
          Event.Bulk g.bucketName (getBulkObjList g.objMap)]
        spawned := [] } := by
  rcases h with h | h <;> subst h <;> simp [DoBulkGet, hr]

/-- A plan of zero chunks in `DoBulkPut` and in `DoBulkGet`: no object transfer is
performed and no chunk task is started. `DoBulkPut` (with no chunk outstanding)
takes the page-finished branch: it hands `PrepareBulkPuts` to the pool if input
remains, and otherwise sets the job FINISHED. `DoBulkGet` returns at once, with
nothing handed to the pool and the state left at INPROGRESS. -/
theorem zero_chunk_plan_put_get (env : Env) (w : BulkPutWorkItem) (g : BulkGetWorkItem)
    (hc : w.workingObjListCount = 0)
    (hw : env.ds3_bulk w.bucketName (putBulkObjList env w.objMap) = BulkResult.plan [])
    (hg : env.ds3_bulk g.bucketName (getBulkObjList g.objMap) = BulkResult.plan []) :
    (putAttempts (DoBulkPut env w).events = [] ∧ listsStarted (DoBulkPut env w).events = 0 ∧
      Event.PageFinished ∈ (DoBulkPut env w).events ∧
      (w.IsFinished = false →
        (DoBulkPut env w).spawned = [PutTask.PrepareBulkPuts] ∧
        (DoBulkPut env w).item = { w with state := JobState.INPROGRESS }) ∧
      (w.IsFinished = true →
        (DoBulkPut env w).spawned = [] ∧
        (DoBulkPut env w).item.state = JobState.FINISHED)) ∧
    (DoBulkGet env g).events = [Event.SetState JobState.INPROGRESS,
        Event.Bulk g.bucketName (getBulkObjList g.objMap)] ∧
    (DoBulkGet env g).spawned = [] ∧
    (DoBulkGet env g).item = { g with state := JobState.INPROGRESS } := by
  have hp := DoBulkPut_no_chunks env w _ hc hw (Or.inr rfl)
  have hgg := DoBulkGet_no_chunks env g _ hg (Or.inr rfl)
  rw [hp, hgg]
  refine ⟨?_, rfl, rfl, rfl⟩
  by_cases hf : w.IsFinished = true
  · simp [hf, putAttempts, listsStarted]
  · simp [hf, putAttempts, listsStarted]

/-- C5: a GET of the one object "a" whose negotiation succeeds with a plan of zero
chunks. `DoBulkGet` returns without treating the page as finished: after
`PrepareBulkGets` and `DoBulkGet` no task is pending and no input remains, and the
job is INPROGRESS; it is never set FINISHED. -/
theorem C5_get_stays_inprogress :
    (GetSys.exec emptyPlanEnv id (BulkGet (objectUrls 1) ['t']) [0, 0]).map
        (fun s => (s.pool, s.item.urls, s.item.state, statesSet s.log))
      = some ([], [], JobState.INPROGRESS,
          [JobState.QUEUED, JobState.PREPARING, JobState.INPROGRESS]) := by
  decide

/-- The page `PrepareBulkPuts` builds when the URLs left are plain files with
distinct names: the first `BULK_PAGE_LIMIT` of them. -/
theorem PrepareBulkPuts_files (w : BulkPutWorkItem) (np : QString)
    (hp : normPrefix w.pfx = some np) (hf : ∀ u ∈ w.urls, u.isDir = false)
    (hn : (w.urls.map (fun u => fileName u.filePath)).Nodup) :
    PrepareBulkPuts w = some
      { item := { w with state := JobState.PREPARING,
                         urls := w.urls.drop BULK_PAGE_LIMIT,
                         objMap := (w.urls.take BULK_PAGE_LIMIT).map
                           (fun u => (np ++ fileName u.filePath, u.filePath)) }
        events := Event.SetState JobState.PREPARING ::
          (if 0 < w.urls.length then [Event.RunDoBulk] else [])
        spawned := if 0 < w.urls.length then [PutTask.DoBulkPut] else [] } := by
  have hn' : (([] : ObjMap).map Prod.fst
      ++ w.urls.map (fun u => np ++ fileName u.filePath)).Nodup := by
    simp only [List.map_nil, List.nil_append]
    have : w.urls.map (fun u => np ++ fileName u.filePath)
        = (w.urls.map (fun u => fileName u.filePath)).map (fun s => np ++ s) := by
      simp [List.map_map, Function.comp]
    rw [this]
    exact List.Nodup.map (fun a b h => List.append_cancel_left h) hn
  have := prepareLoop_files np w.urls w.dirIterator [] hf hn' (Nat.zero_le _)
  simp only [PrepareBulkPuts, hp, Option.some_bind, this, Option.map_some']
  simp

theorem drop_isEmpty_false {α : Type} (l : List α) (n : Nat) (h : n < l.length) :
    (l.drop n).isEmpty = false := by
  cases hd : l.drop n with
  | nil =>
    have := congrArg List.length hd
    simp at this; omega
  | cons a t => rfl

theorem put_requeued_after_error (n : Nat) (hn : BULK_PAGE_LIMIT < n) :
    (PutSys.exec failEnv (BulkPut ['b'] [] (plainFiles n)) [0, 0]).map
        (fun s => (s.pool, s.item.urls.length, listsStarted s.log, prepareRuns s.log))
      = some ([PutTask.PrepareBulkPuts], n - BULK_PAGE_LIMIT, 0, 2) := by
  have h1 := PrepareBulkPuts_files
    { state := JobState.QUEUED, bucketName := ['b'], pfx := [], urls := plainFiles n,
      objMap := [], dirIterator := none, workingObjListCount := 0, deleted := false } []
    rfl (plainFiles_isDir n) (by simpa using plainFiles_nodup [] n)
  have hne := drop_isEmpty_false (plainFiles n) BULK_PAGE_LIMIT
    (by rw [length_plainFiles]; omega)
  have hdl : ((plainFiles n).drop BULK_PAGE_LIMIT).length = n - BULK_PAGE_LIMIT := by
    rw [List.length_drop, length_plainFiles]
  have hpos : 0 < n := by omega
  have hnle : ¬ n ≤ BULK_PAGE_LIMIT := by omega
  simp only [PutSys.exec, PutSys.step, Option.bind]
  simp only [length_plainFiles, hpos, if_true] at h1
  simp [BulkPut, runPutTask, h1, DoBulkPut, failEnv, DeleteOrRequeueBulkPutWorkItem,
    BulkPutWorkItem.IsPageFinished, BulkPutWorkItem.IsFinished, hne, hdl, listsStarted,
    prepareRuns, length_plainFiles, hnle]

/-- C6 as stated fails: a PUT of `BULK_PAGE_LIMIT + 1` files whose negotiation
reports an error. `DoBulkPut` starts no chunk task, but it takes the
page-finished branch and hands `PrepareBulkPuts` to the pool again, for the one
file that is left. -/
theorem C6_put_requeued_after_error :
    (PutSys.exec failEnv (BulkPut ['b'] [] (plainFiles (BULK_PAGE_LIMIT + 1))) [0, 0]).map
        (fun s => (s.pool, s.item.urls.length, listsStarted s.log, prepareRuns s.log))
      = some ([PutTask.PrepareBulkPuts], 1, 0, 2) := by
  have h := put_requeued_after_error (BULK_PAGE_LIMIT + 1) (Nat.lt_succ_self _)
  rw [Nat.add_sub_cancel_left] at h
  exact h

/-- C6, amended: when the negotiation call reports an error, no chunk task of the
page is started and no object is transferred. `DoBulkGet` then just returns: the
GET work item is not requeued. `DoBulkPut` (with no chunk outstanding) takes the
page-finished branch: it hands `PrepareBulkPuts` to the pool again if input
remains, and sets the job FINISHED otherwise. -/
theorem C6_negotiation_error (env : Env) (w : BulkPutWorkItem) (g : BulkGetWorkItem)
    (hc : w.workingObjListCount = 0)
    (hw : env.ds3_bulk w.bucketName (putBulkObjList env w.objMap) = BulkResult.error)
    (hg : env.ds3_bulk g.bucketName (getBulkObjList g.objMap) = BulkResult.error) :
    (putAttempts (DoBulkPut env w).events = [] ∧ listsStarted (DoBulkPut env w).events = 0 ∧
      (∀ t ∈ (DoBulkPut env w).spawned, t = PutTask.PrepareBulkPuts) ∧
      (w.IsFinished = false →
        (DoBulkPut env w).spawned = [PutTask.PrepareBulkPuts] ∧
        (DoBulkPut env w).item = { w with state := JobState.INPROGRESS }) ∧
      (w.IsFinished = true →
        (DoBulkPut env w).spawned = [] ∧
        (DoBulkPut env w).item.state = JobState.FINISHED)) ∧
    listsStarted (DoBulkGet env g).events = 0 ∧
    prepareRuns (DoBulkGet env g).events = 0 ∧
    (DoBulkGet env g).spawned = [] ∧
    (DoBulkGet env g).item = { g with state := JobState.INPROGRESS } := by
  have hp := DoBulkPut_no_chunks env w _ hc hw (Or.inl rfl)
  have hgg := DoBulkGet_no_chunks env g _ hg (Or.inl rfl)
  rw [hp, hgg]
  refine ⟨?_, rfl, rfl, rfl, rfl⟩
  by_cases hf : w.IsFinished = true
  · simp [hf, putAttempts, listsStarted]
  · simp [hf, putAttempts, listsStarted]

/-- C6, amended, at the pages of the file "/a" and of the object "a". -/
theorem C6_negotiation_error_witness :
    (putAttempts (DoBulkPut failEnv putItemA).events = [] ∧
      listsStarted (DoBulkPut failEnv putItemA).events = 0 ∧
      (∀ t ∈ (DoBulkPut failEnv putItemA).spawned, t = PutTask.PrepareBulkPuts) ∧
      (putItemA.IsFinished = false →
        (DoBulkPut failEnv putItemA).spawned = [PutTask.PrepareBulkPuts] ∧
        (DoBulkPut failEnv putItemA).item = { putItemA with state := JobState.INPROGRESS }) ∧
      (putItemA.IsFinished = true →
        (DoBulkPut failEnv putItemA).spawned = [] ∧
        (DoBulkPut failEnv putItemA).item.state = JobState.FINISHED)) ∧
    listsStarted (DoBulkGet failEnv getItemA).events = 0 ∧
    prepareRuns (DoBulkGet failEnv getItemA).events = 0 ∧
    (DoBulkGet failEnv getItemA).spawned = [] ∧
    (DoBulkGet failEnv getItemA).item = { getItemA with state := JobState.INPROGRESS } :=
  C6_negotiation_error failEnv putItemA getItemA rfl rfl rfl

/-! ## C7: a chunk with failing transfers -/

theorem putAttempts_putAll (env : Env) (w : BulkPutWorkItem) (list : BulkObjectList)
    (rest : List Event) :
    putAttempts (putAll env w list ++ rest)
      = list.map (fun o => o.name) ++ putAttempts rest := by
  induction list with
  | nil => rfl
  | cons o list ih =>
    have : putAll env w (o :: list) ++ rest
        = Event.PutObject w.bucketName o.name (GetObjMapValue w.objMap o.name)
            (PutObject env w.bucketName o.name (GetObjMapValue w.objMap o.name))
          :: (putAll env w list ++ rest) := rfl
    rw [this]
    show o.name :: putAttempts (putAll env w list ++ rest) = _
    rw [ih]
    rfl

theorem decCalls_putAll (env : Env) (w : BulkPutWorkItem) (list : BulkObjectList)
    (rest : List Event) :
    decCalls (putAll env w list ++ rest) = decCalls rest := by
  induction list with
  | nil => rfl
  | cons o list ih =>
    have : putAll env w (o :: list) ++ rest
        = Event.PutObject w.bucketName o.name (GetObjMapValue w.objMap o.name)
            (PutObject env w.bucketName o.name (GetObjMapValue w.objMap o.name))
          :: (putAll env w list ++ rest) := rfl
    rw [this]
    exact ih

theorem DeleteOrRequeue_events (w : BulkPutWorkItem) :
    putAttempts (DeleteOrRequeueBulkPutWorkItem w).events = [] ∧
    decCalls (DeleteOrRequeueBulkPutWorkItem w).events = 0 ∧
    (DeleteOrRequeueBulkPutWorkItem w).item.workingObjListCount = w.workingObjListCount := by
  unfold DeleteOrRequeueBulkPutWorkItem
  by_cases h1 : w.IsPageFinished = true <;> by_cases h2 : w.IsFinished = true <;>
    simp [h1, h2, putAttempts, decCalls]

/-- C7: whatever the file system and the storage service answer (so for every set
of entries of the chunk whose `PutObject` fails), `PutBulkObjectList` first calls
`PutObject` for every entry of the chunk, in order, then decrements the
outstanding-chunk counter, once, and only then looks whether the page is finished:
its events are the k `PutObject` calls, followed by the decrement, followed by
those of `DeleteOrRequeueBulkPutWorkItem`, which hold no `PutObject` and no
decrement. The work item and the tasks it hands to the pool are those of a run
without failures. When the chunk was the last one outstanding, the counter reaches
0 and the page-finished branch is taken: the job is set FINISHED if no input
remains, and `PrepareBulkPuts` runs again otherwise. -/
theorem C7_chunk_with_failures (env : Env) (list : BulkObjectList) (w : BulkPutWorkItem) :
    (PutBulkObjectList env list w).events
      = (list.map fun o =>
          Event.PutObject w.bucketName o.name (GetObjMapValue w.objMap o.name)
            (PutObject env w.bucketName o.name (GetObjMapValue w.objMap o.name)))
        ++ Event.Dec (w.workingObjListCount - 1)
        :: (DeleteOrRequeueBulkPutWorkItem w.DecWorkingObjListCount).events ∧
    putAttempts (DeleteOrRequeueBulkPutWorkItem w.DecWorkingObjListCount).events = [] ∧
    decCalls (DeleteOrRequeueBulkPutWorkItem w.DecWorkingObjListCount).events = 0 ∧
    putAttempts (PutBulkObjectList env list w).events = list.map (fun o => o.name) ∧
    decCalls (PutBulkObjectList env list w).events = 1 ∧
    (PutBulkObjectList env list w).item.workingObjListCount = w.workingObjListCount - 1 ∧
    (PutBulkObjectList env list w).item = (PutBulkObjectList calmEnv list w).item ∧
    (PutBulkObjectList env list w).spawned = (PutBulkObjectList calmEnv list w).spawned ∧
    (w.workingObjListCount = 1 →
      (PutBulkObjectList env list w).item.workingObjListCount = 0 ∧
      Event.PageFinished ∈ (PutBulkObjectList env list w).events ∧
      (w.IsFinished = true → (PutBulkObjectList env list w).item.state = JobState.FINISHED) ∧
      (w.IsFinished = false →
        (PutBulkObjectList env list w).spawned = [PutTask.PrepareBulkPuts])) := by
  obtain ⟨h1, h2, h3⟩ := DeleteOrRequeue_events w.DecWorkingObjListCount
  refine ⟨rfl, h1, h2, ?_, ?_, ?_, rfl, rfl, ?_⟩
  · show putAttempts (putAll env w list ++ Event.Dec _ :: _) = _
    rw [putAttempts_putAll]
    show _ ++ putAttempts (DeleteOrRequeueBulkPutWorkItem w.DecWorkingObjListCount).events = _
    rw [h1]; simp
  · show decCalls (putAll env w list ++ Event.Dec _ :: _) = _
    rw [decCalls_putAll]
    show decCalls (DeleteOrRequeueBulkPutWorkItem w.DecWorkingObjListCount).events + 1 = 1
    rw [h2]
  · show (DeleteOrRequeueBulkPutWorkItem w.DecWorkingObjListCount).item.workingObjListCount = _
    rw [h3]; rfl
  · intro hc
    have hpf : w.DecWorkingObjListCount.IsPageFinished = true := by
      simp [BulkPutWorkItem.IsPageFinished, BulkPutWorkItem.DecWorkingObjListCount, hc]
    have hfin : w.DecWorkingObjListCount.IsFinished = w.IsFinished := rfl
    refine ⟨?_, ?_, ?_, ?_⟩
    · show (DeleteOrRequeueBulkPutWorkItem w.DecWorkingObjListCount).item.workingObjListCount = _
      rw [h3]; simp [BulkPutWorkItem.DecWorkingObjListCount, hc]
    · show Event.PageFinished ∈ putAll env w list ++ Event.Dec _ ::
        (DeleteOrRequeueBulkPutWorkItem w.DecWorkingObjListCount).events
      by_cases hf : w.IsFinished = true <;>
        simp [DeleteOrRequeueBulkPutWorkItem, hpf, hfin, hf]
    · intro hf
      show (DeleteOrRequeueBulkPutWorkItem w.DecWorkingObjListCount).item.state = _
      simp [DeleteOrRequeueBulkPutWorkItem, hpf, hfin, hf]
    · intro hf
      show (DeleteOrRequeueBulkPutWorkItem w.DecWorkingObjListCount).spawned = _
      simp [DeleteOrRequeueBulkPutWorkItem, hpf, hfin, hf]

/-! ## C2: the number of negotiation calls -/

theorem bulkCalls_append (a b : List Event) : bulkCalls (a ++ b) = bulkCalls a ++ bulkCalls b := by
  induction a with
  | nil => rfl
  | cons e a ih => cases e <;> simp [bulkCalls, ih]

theorem bulkCalls_putAll (env : Env) (w : BulkPutWorkItem) (list : BulkObjectList) :
    bulkCalls (putAll env w list) = [] := by
  induction list with
  | nil => rfl
  | cons o list ih =>
    have : putAll env w (o :: list)
        = Event.PutObject w.bucketName o.name (GetObjMapValue w.objMap o.name)
            (PutObject env w.bucketName o.name (GetObjMapValue w.objMap o.name))
          :: putAll env w list := rfl
    rw [this]
    exact ih

theorem PutSys.step_last (env : Env) (w : BulkPutWorkItem) (pre : List PutTask) (t : PutTask)
    (log : List Event) :
    PutSys.step env ⟨w, pre ++ [t], log⟩ ((pre ++ [t]).length - 1)
      = (runPutTask env t w).map fun out =>
          { item := out.item, pool := pre ++ out.spawned, log := log ++ out.events } := by
  have h1 : (pre ++ [t]).length - 1 = pre.length := by simp
  have h2 : (pre ++ [t]).get? pre.length = some t := by
    simp [List.getElem?_append_right]
  have h3 : (pre ++ [t]).eraseIdx pre.length = pre := by
    rw [List.eraseIdx_append_of_length_le (le_refl _)]
    simp
  simp only [PutSys.step, h1, h2, h3]

theorem PutSys.runLifo_done (env : Env) (fuel : Nat) (s : PutSys) (h : s.pool = []) :
    PutSys.runLifo env fuel s = some s := by
  cases fuel with
  | zero => rfl
  | succ n => simp [PutSys.runLifo, h]

theorem PutSys.runLifo_add (env : Env) (a b : Nat) (s : PutSys) :
    PutSys.runLifo env (a + b) s = (PutSys.runLifo env a s).bind (PutSys.runLifo env b) := by
  induction a generalizing s with
  | zero => simp [PutSys.runLifo]
  | succ a ih =>
    rw [Nat.succ_add]
    by_cases hp : s.pool.isEmpty = true
    · have hnil : s.pool = [] := List.isEmpty_iff.1 hp
      simp [PutSys.runLifo, hp, PutSys.runLifo_done env b s hnil]
    · simp only [PutSys.runLifo, hp, if_false, Bool.false_eq_true]
      cases hs : s.step env (s.pool.length - 1) with
      | none => rfl
      | some s' => simp [ih]

theorem PutSys.runLifo_succ_last (env : Env) (fuel : Nat) (w : BulkPutWorkItem)
    (pre : List PutTask) (t : PutTask) (log : List Event) :
    PutSys.runLifo env (fuel + 1) ⟨w, pre ++ [t], log⟩
      = ((runPutTask env t w).map fun out =>
          ({ item := out.item, pool := pre ++ out.spawned, log := log ++ out.events } : PutSys)).bind
        (PutSys.runLifo env fuel) := by
  have hp : ¬ (pre ++ [t]).isEmpty = true := by simp
  rw [PutSys.runLifo]
  simp only [hp, if_false, Bool.false_eq_true]
  rw [PutSys.step_last]

/-- The dispatch phase: the loop of `DoBulkPut` starts all chunks, one after the
other; the counter grows by their number. -/
theorem dispatch_phase (env : Env) (ls : List BulkObjectList) (l : BulkObjectList)
    (pre : List PutTask) (w : BulkPutWorkItem) (log : List Event) :
    ∃ ev, bulkCalls ev = [] ∧
      PutSys.runLifo env (ls.length + 1) ⟨w, pre ++ [PutTask.DoBulkPutLoop (l :: ls)], log⟩
        = some ⟨{ w with workingObjListCount := w.workingObjListCount + (ls.length + 1 : Nat) },
            pre ++ (l :: ls).map PutTask.PutBulkObjectList, log ++ ev⟩ := by
  induction ls generalizing l pre w log with
  | nil =>
    refine ⟨[Event.Inc (w.workingObjListCount + 1), Event.RunList l], rfl, ?_⟩
    rw [PutSys.runLifo_succ_last]
    simp [runPutTask, DoBulkPutLoop, PutSys.runLifo, BulkPutWorkItem.IncWorkingObjListCount]
  | cons l' ls ih =>
    obtain ⟨ev, hev, h⟩ := ih l' (pre ++ [PutTask.PutBulkObjectList l])
      w.IncWorkingObjListCount (log ++ [Event.Inc (w.workingObjListCount + 1), Event.RunList l])
    refine ⟨[Event.Inc (w.workingObjListCount + 1), Event.RunList l] ++ ev, ?_, ?_⟩
    · rw [bulkCalls_append, hev]; rfl
    · rw [PutSys.runLifo_succ_last]
      simp only [runPutTask, DoBulkPutLoop, Option.map_some', Option.some_bind,
        List.isEmpty_cons, Bool.false_eq_true, if_false]
      have e1 : pre ++ [PutTask.PutBulkObjectList l, PutTask.DoBulkPutLoop (l' :: ls)]
          = (pre ++ [PutTask.PutBulkObjectList l]) ++ [PutTask.DoBulkPutLoop (l' :: ls)] := by
        simp
      simp only [BulkPutWorkItem.IncWorkingObjListCount, List.length_cons] at h ⊢
      rw [e1, h]
      simp only [List.length_cons, List.map_cons,
        List.append_assoc, List.cons_append, List.nil_append, Option.some.injEq]
      congr 2
      push_cast
      ring

theorem bulkCalls_DeleteOrRequeue (w : BulkPutWorkItem) :
    bulkCalls (DeleteOrRequeueBulkPutWorkItem w).events = [] := by
  unfold DeleteOrRequeueBulkPutWorkItem
  by_cases h1 : w.IsPageFinished = true <;> by_cases h2 : w.IsFinished = true <;>
    simp [h1, h2, bulkCalls]

theorem bulkCalls_PutBulkObjectList (env : Env) (list : BulkObjectList) (w : BulkPutWorkItem) :
    bulkCalls (PutBulkObjectList env list w).events = [] := by
  show bulkCalls (putAll env w list ++ Event.Dec _ ::
    (DeleteOrRequeueBulkPutWorkItem w.DecWorkingObjListCount).events) = []
  rw [bulkCalls_append, bulkCalls_putAll]
  exact bulkCalls_DeleteOrRequeue _

theorem DeleteOrRequeue_at_zero (w : BulkPutWorkItem) (hc : w.workingObjListCount = 0) :
    (DeleteOrRequeueBulkPutWorkItem w).item.urls = w.urls ∧
    (DeleteOrRequeueBulkPutWorkItem w).item.pfx = w.pfx ∧
    (DeleteOrRequeueBulkPutWorkItem w).item.dirIterator = w.dirIterator ∧
    (DeleteOrRequeueBulkPutWorkItem w).item.workingObjListCount = 0 ∧
    (DeleteOrRequeueBulkPutWorkItem w).spawned
      = if w.IsFinished then [] else [PutTask.PrepareBulkPuts] := by
  have hpf : w.IsPageFinished = true := by simp [BulkPutWorkItem.IsPageFinished, hc]
  by_cases hf : w.IsFinished = true <;>
    simp [DeleteOrRequeueBulkPutWorkItem, hpf, hf, hc]

/-- The completion phase: with every chunk of the page started, the chunk tasks
complete one after the other; as long as another chunk is outstanding nothing
else happens. -/
theorem complete_phase (env : Env) (cs : List BulkObjectList) (c0 : BulkObjectList)
    (w : BulkPutWorkItem) (log : List Event)
    (hc : w.workingObjListCount = ((cs.length + 1 : Nat) : Int)) :
    ∃ ev, bulkCalls ev = [] ∧
      PutSys.runLifo env cs.length ⟨w, (c0 :: cs).map PutTask.PutBulkObjectList, log⟩
        = some ⟨{ w with workingObjListCount := 1 }, [PutTask.PutBulkObjectList c0],
            log ++ ev⟩ := by
  induction cs using List.reverseRecOn generalizing w log with
  | nil =>
    refine ⟨[], rfl, ?_⟩
    have : ({ w with workingObjListCount := 1 } : BulkPutWorkItem) = w := by
      cases w; simp at hc; simp [hc]
    simp [PutSys.runLifo, this]
  | append_singleton cs c ih =>
    have hnpf : w.DecWorkingObjListCount.IsPageFinished = false := by
      simp only [BulkPutWorkItem.IsPageFinished, BulkPutWorkItem.DecWorkingObjListCount, hc,
        decide_eq_false_iff_not, List.length_append, List.length_cons, List.length_nil]
      push_cast
      omega
    have hout : PutBulkObjectList env c w
        = { item := w.DecWorkingObjListCount,
            events := putAll env w c ++ [Event.Dec w.DecWorkingObjListCount.workingObjListCount],
            spawned := [] } := by
      simp [PutBulkObjectList, DeleteOrRequeueBulkPutWorkItem, hnpf]
    have hc' : w.DecWorkingObjListCount.workingObjListCount = ((cs.length + 1 : Nat) : Int) := by
      simp only [BulkPutWorkItem.DecWorkingObjListCount, hc, List.length_append,
        List.length_cons, List.length_nil]
      push_cast
      omega
    obtain ⟨ev, hev, h⟩ := ih w.DecWorkingObjListCount
      (log ++ (putAll env w c ++ [Event.Dec w.DecWorkingObjListCount.workingObjListCount])) hc'
    refine ⟨(putAll env w c ++ [Event.Dec w.DecWorkingObjListCount.workingObjListCount]) ++ ev,
      ?_, ?_⟩
    · rw [bulkCalls_append, bulkCalls_append, bulkCalls_putAll, hev]; rfl
    · have e1 : (c0 :: (cs ++ [c])).map PutTask.PutBulkObjectList
          = (c0 :: cs).map PutTask.PutBulkObjectList ++ [PutTask.PutBulkObjectList c] := by
        simp
      have e2 : (cs ++ [c]).length = cs.length + 1 := by simp
      rw [e1, e2, PutSys.runLifo_succ_last]
      simp only [runPutTask, hout, Option.map_some', Option.some_bind, List.append_nil]
      rw [h]
      simp [BulkPutWorkItem.DecWorkingObjListCount]

/-- One page in a run of the kind of `runLifo`: from `DoBulkPut` to the moment the
page is finished, with exactly one negotiation call, for the object map of the
page. Afterwards `PrepareBulkPuts` is pending if input remains, and nothing is
pending otherwise. -/
theorem page_lifo (env : Env) (w : BulkPutWorkItem) (log : List Event)
    (hc : w.workingObjListCount = 0) :
    ∃ fuel s', PutSys.runLifo env fuel ⟨w, [PutTask.DoBulkPut], log⟩ = some s' ∧
      bulkCalls s'.log = bulkCalls log ++ [putBulkObjList env w.objMap] ∧
      s'.item.urls = w.urls ∧ s'.item.pfx = w.pfx ∧ s'.item.dirIterator = w.dirIterator ∧
      s'.item.workingObjListCount = 0 ∧
      s'.pool = if w.IsFinished then [] else [PutTask.PrepareBulkPuts] := by
  have hstart : ∀ fuel, PutSys.runLifo env (fuel + 1) ⟨w, [PutTask.DoBulkPut], log⟩
      = PutSys.runLifo env fuel ⟨(DoBulkPut env w).item, (DoBulkPut env w).spawned,
          log ++ (DoBulkPut env w).events⟩ := by
    intro fuel
    have := PutSys.runLifo_succ_last env fuel w [] PutTask.DoBulkPut log
    simpa [runPutTask] using this
  cases hr : env.ds3_bulk w.bucketName (putBulkObjList env w.objMap) with
  | error =>
    have hd := DoBulkPut_no_chunks env w _ hc hr (Or.inl rfl)
    refine ⟨1, ⟨(DoBulkPut env w).item, (DoBulkPut env w).spawned,
      log ++ (DoBulkPut env w).events⟩, ?_, ?_⟩
    · rw [hstart 0]; rfl
    · rw [hd]
      by_cases hf : w.IsFinished = true <;> simp [hf, bulkCalls_append, bulkCalls, hc]
  | plan chunks =>
    cases chunks with
    | nil =>
      have hd := DoBulkPut_no_chunks env w _ hc hr (Or.inr rfl)
      refine ⟨1, ⟨(DoBulkPut env w).item, (DoBulkPut env w).spawned,
        log ++ (DoBulkPut env w).events⟩, ?_, ?_⟩
      · rw [hstart 0]; rfl
      · rw [hd]
        by_cases hf : w.IsFinished = true <;> simp [hf, bulkCalls_append, bulkCalls, hc]
    | cons l ls =>
      have hd : DoBulkPut env w =
          { item := { w with state := JobState.INPROGRESS }
            events := [Event.SetState JobState.INPROGRESS,
              Event.Bulk w.bucketName (putBulkObjList env w.objMap)]
            spawned := [PutTask.DoBulkPutLoop (l :: ls)] } := by
        simp [DoBulkPut, hr]
      obtain ⟨ev1, hev1, h1⟩ := dispatch_phase env ls l [] { w with state := JobState.INPROGRESS }
        (log ++ [Event.SetState JobState.INPROGRESS,
              Event.Bulk w.bucketName (putBulkObjList env w.objMap)])
      have hcnt : ({ w with state := JobState.INPROGRESS } : BulkPutWorkItem).workingObjListCount
          + ((ls.length + 1 : Nat) : Int) = ((ls.length + 1 : Nat) : Int) := by
        show w.workingObjListCount + _ = _
        rw [hc]; simp
      rw [hcnt] at h1
      obtain ⟨ev2, hev2, h2⟩ := complete_phase env ls l
        { w with state := JobState.INPROGRESS, workingObjListCount := ((ls.length + 1 : Nat) : Int) }
        ((log ++ [Event.SetState JobState.INPROGRESS,
              Event.Bulk w.bucketName (putBulkObjList env w.objMap)]) ++ ev1) rfl
      have h3 := PutSys.runLifo_succ_last env 0
        { w with state := JobState.INPROGRESS, workingObjListCount := 1 } []
        (PutTask.PutBulkObjectList l)
        (((log ++ [Event.SetState JobState.INPROGRESS,
              Event.Bulk w.bucketName (putBulkObjList env w.objMap)]) ++ ev1) ++ ev2)
      refine ⟨1 + ((ls.length + 1) + (ls.length + 1)),
        ⟨(PutBulkObjectList env l
            { w with state := JobState.INPROGRESS, workingObjListCount := 1 }).item,
          (PutBulkObjectList env l
            { w with state := JobState.INPROGRESS, workingObjListCount := 1 }).spawned,
          (((log ++ [Event.SetState JobState.INPROGRESS,
              Event.Bulk w.bucketName (putBulkObjList env w.objMap)]) ++ ev1) ++ ev2)
            ++ (PutBulkObjectList env l
              { w with state := JobState.INPROGRESS, workingObjListCount := 1 }).events⟩,
        ?_, ?_⟩
      · rw [Nat.add_comm 1, hstart, hd, PutSys.runLifo_add]
        simp only [List.nil_append] at h1
        rw [h1]
        simp only [Option.some_bind]
        rw [PutSys.runLifo_add, h2]
        simp only [Option.some_bind]
        simp only [List.nil_append] at h3
        rw [h3]
        rfl
      · have hD := DeleteOrRequeue_at_zero
          (BulkPutWorkItem.DecWorkingObjListCount
            { w with state := JobState.INPROGRESS, workingObjListCount := 1 })
          (by simp [BulkPutWorkItem.DecWorkingObjListCount])
        refine ⟨?_, hD.1, hD.2.1, hD.2.2.1, hD.2.2.2.1, hD.2.2.2.2⟩
        simp only [bulkCalls_append, bulkCalls_PutBulkObjectList, hev1, hev2, List.append_nil]
        rfl

/-- A whole PUT job of plain files with distinct names, in a run of the kind of
`runLifo`: the run comes to an end, with one negotiation call per page of
`BULK_PAGE_LIMIT` files. -/
theorem job_lifo (env : Env) (np : QString) (n : Nat) :
    ∀ (w : BulkPutWorkItem) (log : List Event), w.urls.length = n →
      normPrefix w.pfx = some np → (∀ u ∈ w.urls, u.isDir = false) →
      (w.urls.map (fun u => fileName u.filePath)).Nodup → w.dirIterator = none →
      w.workingObjListCount = 0 →
      ∃ fuel s', PutSys.runLifo env fuel ⟨w, [PutTask.PrepareBulkPuts], log⟩ = some s' ∧
        s'.pool = [] ∧
        ∃ pages, bulkCalls s'.log = bulkCalls log ++ pages ∧
          pages.length = (n + BULK_PAGE_LIMIT - 1) / BULK_PAGE_LIMIT ∧
          (∀ p ∈ pages, p.length ≤ BULK_PAGE_LIMIT) ∧
          (pages.map List.length).sum = n := by
  have hL : BULK_PAGE_LIMIT = 500000 := rfl
  induction n using Nat.strong_induction_on with
  | _ n ih =>
    intro w log hlen hp hf hn hdi hc
    have hprep := PrepareBulkPuts_files w np hp hf hn
    have hstart : ∀ fuel, PutSys.runLifo env (fuel + 1) ⟨w, [PutTask.PrepareBulkPuts], log⟩
        = ((PrepareBulkPuts w).map fun out =>
            ({ item := out.item, pool := out.spawned, log := log ++ out.events } : PutSys)).bind
          (PutSys.runLifo env fuel) := by
      intro fuel
      have := PutSys.runLifo_succ_last env fuel w [] PutTask.PrepareBulkPuts log
      simpa [runPutTask] using this
    by_cases h0 : n = 0
    · subst h0
      have hnil : w.urls = [] := List.length_eq_zero.1 hlen
      refine ⟨1, PutSys.mk
          { w with state := JobState.PREPARING, urls := w.urls.drop BULK_PAGE_LIMIT,
                   objMap := (w.urls.take BULK_PAGE_LIMIT).map
                     (fun u => (np ++ fileName u.filePath, u.filePath)) } []
          (log ++ [Event.SetState JobState.PREPARING]), ?_, rfl, [], ?_, ?_, ?_, ?_⟩
      · rw [hstart 0, hprep]; simp [hnil, PutSys.runLifo]
      · simp [bulkCalls_append, bulkCalls]
      · simp [hL]
      · simp
      · simp
    · have hpos : 0 < w.urls.length := by omega
      obtain ⟨fuel2, s2, hrun2, hb2, hu2, hp2, hd2, hc2, hpool2⟩ := page_lifo env
        { w with state := JobState.PREPARING, urls := w.urls.drop BULK_PAGE_LIMIT,
                 objMap := (w.urls.take BULK_PAGE_LIMIT).map
                   (fun u => (np ++ fileName u.filePath, u.filePath)) }
        (log ++ [Event.SetState JobState.PREPARING, Event.RunDoBulk]) hc
      have hrun1 : PutSys.runLifo env (1 + fuel2) ⟨w, [PutTask.PrepareBulkPuts], log⟩
          = some s2 := by
        rw [Nat.add_comm, hstart, hprep]
        simp only [hpos, if_true, Option.map_some', Option.some_bind]
        exact hrun2
      obtain ⟨page, hpd⟩ : ∃ page, page = putBulkObjList env ((w.urls.take BULK_PAGE_LIMIT).map
          (fun u => (np ++ fileName u.filePath, u.filePath))) := ⟨_, rfl⟩
      have hpage : page.length = min BULK_PAGE_LIMIT n := by
        simp [hpd, putBulkObjList, hlen]
      have hb2' : bulkCalls s2.log = bulkCalls log ++ [page] := by
        rw [hb2, hpd]; simp [bulkCalls_append, bulkCalls]
      by_cases hle : n ≤ BULK_PAGE_LIMIT
      · have hdrop : w.urls.drop BULK_PAGE_LIMIT = [] := by
          apply List.drop_eq_nil_of_le; omega
        have hfin : BulkPutWorkItem.IsFinished
            { w with state := JobState.PREPARING, urls := w.urls.drop BULK_PAGE_LIMIT,
                     objMap := (w.urls.take BULK_PAGE_LIMIT).map
                       (fun u => (np ++ fileName u.filePath, u.filePath)) } = true := by
          simp [BulkPutWorkItem.IsFinished, hdrop, hdi]
        rw [hfin] at hpool2
        refine ⟨1 + fuel2, s2, hrun1, by simpa using hpool2, [page], hb2', ?_, ?_, ?_⟩
        · simp only [List.length_singleton, hL] at hle ⊢
          omega
        · intro p hp'
          rw [List.mem_singleton.1 hp', hpage]
          exact Nat.min_le_left _ _
        · simp only [List.map_cons, List.map_nil, List.sum_cons, List.sum_nil, hpage]
          omega
      · have hlen' : (w.urls.drop BULK_PAGE_LIMIT).length = n - BULK_PAGE_LIMIT := by
          rw [List.length_drop, hlen]
        have hne := drop_isEmpty_false w.urls BULK_PAGE_LIMIT (by omega)
        have hfin : BulkPutWorkItem.IsFinished
            { w with state := JobState.PREPARING, urls := w.urls.drop BULK_PAGE_LIMIT,
                     objMap := (w.urls.take BULK_PAGE_LIMIT).map
                       (fun u => (np ++ fileName u.filePath, u.filePath)) } = false := by
          simp [BulkPutWorkItem.IsFinished, hne]
        rw [hfin] at hpool2
        simp only [Bool.false_eq_true, if_false] at hpool2
        have hLpos := BULK_PAGE_LIMIT_pos
        obtain ⟨fuel3, s3, hrun3, hpool3, pages, hb3, hl3, hall3, hsum3⟩ :=
          ih (n - BULK_PAGE_LIMIT) (by omega) s2.item s2.log
            (by rw [hu2]; exact hlen') (by rw [hp2]; exact hp)
            (by rw [hu2]; intro u hu; exact hf u (List.mem_of_mem_drop hu))
            (by
              rw [hu2]
              exact List.Nodup.sublist
                (List.Sublist.map _ (List.drop_sublist _ _)) hn)
            (by rw [hd2]; exact hdi) hc2
        have hs2 : s2 = ⟨s2.item, [PutTask.PrepareBulkPuts], s2.log⟩ := by
          cases s2; simp at hpool2; simp [hpool2]
        refine ⟨(1 + fuel2) + fuel3, s3, ?_, hpool3, page :: pages, ?_, ?_, ?_, ?_⟩
        · rw [PutSys.runLifo_add, hrun1, Option.some_bind, hs2]
          exact hrun3
        · rw [hb3, hb2']; simp
        · simp only [List.length_cons, hl3, hL] at hle ⊢
          omega
        · intro p hp'
          rcases List.mem_cons.1 hp' with h | h
          · rw [h, hpage]; exact Nat.min_le_left _ _
          · exact hall3 p h
        · simp only [List.map_cons, List.sum_cons, hpage, hsum3]
          omega

/-! ### GET jobs: at most one negotiation call -/

theorem bulkCalls_getAll (w : BulkGetWorkItem) (list : BulkObjectList) :
    bulkCalls (list.map fun o =>
      Event.GetObject w.bucketName o.name (GetObjMapValue w.objMap o.name)) = [] := by
  induction list with
  | nil => rfl
  | cons o list ih => exact ih

theorem sum_callsAhead_eraseIdx (pool : List GetTask) (i : Nat) (t : GetTask)
    (h : pool.get? i = some t) :
    ((pool.eraseIdx i).map GetTask.callsAhead).sum + t.callsAhead
      = (pool.map GetTask.callsAhead).sum := by
  induction pool generalizing i with
  | nil => simp at h
  | cons a pool ih =>
    cases i with
    | zero =>
      simp at h; subst h
      simp [List.eraseIdx]; omega
    | succ i =>
      have := ih i (by simpa using h)
      simp only [List.eraseIdx, List.map_cons, List.sum_cons]
      omega

theorem runGetTask_calls (env : Env) (cleanPath : QString → QString) (t : GetTask)
    (w : BulkGetWorkItem) :
    ((runGetTask env cleanPath t w).spawned.map GetTask.callsAhead).sum
      + (bulkCalls (runGetTask env cleanPath t w).events).length ≤ t.callsAhead := by
  cases t with
  | PrepareBulkGets =>
    simp only [runGetTask, PrepareBulkGets]
    split <;> simp [bulkCalls, GetTask.callsAhead]
  | DoBulkGet =>
    simp only [runGetTask, DoBulkGet]
    split <;> simp [bulkCalls, GetTask.callsAhead]
  | DoBulkGetLoop rest =>
    cases rest with
    | nil => simp [runGetTask, DoBulkGetLoop, bulkCalls]
    | cons l ls =>
      by_cases h : ls.isEmpty = true <;>
        simp [runGetTask, DoBulkGetLoop, bulkCalls, GetTask.callsAhead, h]
  | GetBulkObjectList list =>
    simp [runGetTask, GetBulkObjectList, bulkCalls_append, bulkCalls_getAll, bulkCalls,
      GetTask.callsAhead]

theorem GetSys.exec_calls (env : Env) (cleanPath : QString → QString) (sched : List Nat) :
    ∀ s s' : GetSys, GetSys.exec env cleanPath s sched = some s' →
      (s'.pool.map GetTask.callsAhead).sum + (bulkCalls s'.log).length
        ≤ (s.pool.map GetTask.callsAhead).sum + (bulkCalls s.log).length := by
  induction sched with
  | nil =>
    intro s s' h
    simp [GetSys.exec] at h
    rw [h]
  | cons i sched ih =>
    intro s s' h
    simp only [GetSys.exec] at h
    cases hs : s.step env cleanPath i with
    | none => simp [hs] at h
    | some s1 =>
      simp only [hs, Option.some_bind] at h
      have h1 := ih s1 s' h
      simp only [GetSys.step] at hs
      cases ht : s.pool.get? i with
      | none =>
        rw [ht] at hs
        simp at hs
      | some t =>
        have h2 := sum_callsAhead_eraseIdx s.pool i t ht
        rw [ht] at hs
        simp only [Option.some.injEq] at hs
        have h3 := runGetTask_calls env cleanPath t s.item
        rw [← hs] at h1
        simp only [List.map_append, List.sum_append, bulkCalls_append, List.length_append] at h1
        omega

theorem normPrefix_isSome (p : QString) : ∃ q, normPrefix p = some q := by
  by_cases h0 : p = []
  · exact ⟨[], by simp [h0, normPrefix]⟩
  · by_cases h : DELIMITER <:+ p
    · obtain ⟨t, ht⟩ := h
      exact ⟨t ++ ['/'], by rw [← ht]; exact normPrefix_snoc t⟩
    · exact ⟨_, normPrefix_other p h0 h⟩

/-- The page `PrepareBulkGets` builds for object URLs with distinct names of one
bucket: the first `BULK_PAGE_LIMIT` of them. -/
theorem PrepareBulkGets_objects (cleanPath : QString → QString) (w : BulkGetWorkItem)
    (b : QString) (hb : ∀ u ∈ w.urls, u.bucketName = b ∧ u.isBucketOrFolder = false)
    (hn : (w.urls.map (fun u => u.objectName)).Nodup) (hpos : 0 < w.urls.length) :
    PrepareBulkGets cleanPath w =
      { item := { w with state := JobState.PREPARING,
                         urls := w.urls.drop BULK_PAGE_LIMIT, bucketName := b,
                         objMap := (w.urls.take BULK_PAGE_LIMIT).map
                           (fun u => (u.objectName,
                             cleanPath (w.destination ++ ['/'] ++ u.lastPathPart))) }
        events := [Event.SetState JobState.PREPARING, Event.RunDoBulk]
        spawned := [GetTask.DoBulkGet] } := by
  have hne : w.urls.isEmpty = false := by
    cases hu : w.urls with
    | nil => simp [hu] at hpos
    | cons a t => rfl
  have := prepareGetLoop_objects cleanPath w.destination b w.urls [] w.bucketName []
    hb (Or.inl rfl) (by simpa using hn) (Nat.zero_le _)
  simp only [PrepareBulkGets, this]
  simp [hne, hpos]

theorem GetBulkObjectList_spawned (list : BulkObjectList) (w : BulkGetWorkItem) :
    (GetBulkObjectList list w).spawned = [] := rfl

theorem GetBulkObjectList_urls (list : BulkObjectList) (w : BulkGetWorkItem) :
    (GetBulkObjectList list w).item.urls = w.urls := rfl

theorem GetBulkObjectList_state (list : BulkObjectList) (w : BulkGetWorkItem) :
    (GetBulkObjectList list w).item.state = w.state := rfl

theorem bulkCalls_GetBulkObjectList (list : BulkObjectList) (w : BulkGetWorkItem) :
    bulkCalls (GetBulkObjectList list w).events = [] := by
  show bulkCalls (_ ++ [Event.Dec _]) = []
  rw [bulkCalls_append, bulkCalls_getAll]
  rfl

theorem get_one_call (n : Nat) (hn : BULK_PAGE_LIMIT < n) :
    (GetSys.exec calmEnv id (BulkGet (objectUrls n) ['t']) [0, 0, 0, 0]).map
        (fun s => (s.pool, (bulkCalls s.log).map List.length, s.item.urls.length,
          s.item.state))
      = some ([], [BULK_PAGE_LIMIT], n - BULK_PAGE_LIMIT, JobState.INPROGRESS) := by
  have h1 := PrepareBulkGets_objects id
    { state := JobState.QUEUED, bucketName := [], destination := ['t'],
      urls := objectUrls n, objMap := [], workingObjListCount := 0 } ['b']
    (objectUrls_spec n) (objectUrls_nodup n) (by rw [length_objectUrls]; omega)
  have hmin : min BULK_PAGE_LIMIT n = BULK_PAGE_LIMIT := Nat.min_eq_left (Nat.le_of_lt hn)
  simp only [GetSys.exec, GetSys.step, Option.bind]
  simp [BulkGet, runGetTask, h1, DoBulkGet, calmEnv, DoBulkGetLoop, GetBulkObjectList_spawned,
    GetBulkObjectList_urls, GetBulkObjectList_state, bulkCalls_GetBulkObjectList,
    bulkCalls_append, bulkCalls, getBulkObjList, length_objectUrls, hmin]

/-- A PUT job whose sources are N plain files with distinct names, run so that
every chunk task of a page completes after the dispatch loop has started them all
(`runLifo`): the run comes to an end, the number of negotiation calls is
ceil(N / BULK_PAGE_LIMIT), no call carries more than `BULK_PAGE_LIMIT` objects, and
the calls carry N objects in all. -/
theorem put_calls_of_plain_files (env : Env) (bucket pfx : QString) (urls : List LocalUrl)
    (hf : ∀ u ∈ urls, u.isDir = false)
    (hn : (urls.map (fun u => fileName u.filePath)).Nodup) :
    ∃ fuel s, PutSys.runLifo env fuel (BulkPut bucket pfx urls) = some s ∧ s.pool = [] ∧
      (bulkCalls s.log).length = (urls.length + BULK_PAGE_LIMIT - 1) / BULK_PAGE_LIMIT ∧
      (∀ p ∈ bulkCalls s.log, p.length ≤ BULK_PAGE_LIMIT) ∧
      ((bulkCalls s.log).map List.length).sum = urls.length := by
  obtain ⟨np, hnp⟩ := normPrefix_isSome pfx
  obtain ⟨fuel, s, hrun, hpool, pages, hb, hl, hall, hsum⟩ :=
    job_lifo env np urls.length (BulkPut bucket pfx urls).item
      (BulkPut bucket pfx urls).log rfl hnp hf hn rfl rfl
  have hb' : bulkCalls s.log = pages := by
    rw [hb]; rfl
  refine ⟨fuel, s, hrun, hpool, ?_, ?_, ?_⟩
  · rw [hb']; exact hl
  · rw [hb']; exact hall
  · rw [hb']; exact hsum

/-- A GET job, whatever its URLs and whatever the run: at most one negotiation
call is made, since nothing hands `PrepareBulkGets` to the pool again. -/
theorem get_calls_le_one (env : Env) (cleanPath : QString → QString) (dest : QString)
    (gurls : List DS3URL) (sched : List Nat) (s : GetSys)
    (h : GetSys.exec env cleanPath (BulkGet gurls dest) sched = some s) :
    (bulkCalls s.log).length ≤ 1 := by
  have := GetSys.exec_calls env cleanPath sched _ s h
  simp only [BulkGet, bulkCalls, GetTask.callsAhead, List.map_cons, List.map_nil,
    List.sum_cons, List.sum_nil, List.length_nil] at this
  omega

/-- C2: a GET of `BULK_PAGE_LIMIT + 1` = 500,001 objects of one bucket. With
`PrepareBulkGets`, `DoBulkGet`, the start of the one chunk of the plan and its
completion the run is over: no task is pending, one negotiation call was made, for
`BULK_PAGE_LIMIT` keys, the job is INPROGRESS, and one URL is left that nothing
will ever look at. No run of this job makes more than one negotiation call, where
ceil(N / BULK_PAGE_LIMIT) is 2. -/
theorem C2_get_negotiates_once :
    (GetSys.exec calmEnv id (BulkGet (objectUrls (BULK_PAGE_LIMIT + 1)) ['t']) [0, 0, 0, 0]).map
        (fun s => (s.pool, (bulkCalls s.log).map List.length, s.item.urls.length,
          s.item.state))
      = some ([], [BULK_PAGE_LIMIT], 1, JobState.INPROGRESS) ∧
    ∀ sched s,
      GetSys.exec calmEnv id (BulkGet (objectUrls (BULK_PAGE_LIMIT + 1)) ['t']) sched = some s →
      (bulkCalls s.log).length ≤ 1 := by
  have h := get_one_call (BULK_PAGE_LIMIT + 1) (Nat.lt_succ_self _)
  rw [Nat.add_sub_cancel_left] at h
  exact ⟨h, fun sched s hs => get_calls_le_one calmEnv id ['t'] _ sched s hs⟩

/-! ## C11: the pages of a job and the uninterrupted expansion -/

theorem rxPlain_yd : ∀ c ∈ "/y/d".toList, rxPlain c = true := by decide

theorem aName_zero : aName 0 = ['a'] := rfl

theorem viewIn_removeViews_ne (l : List (Nat × JobView)) (i j : Nat) (h : j ≠ i) :
    viewIn (removeViews l i) j = viewIn l j := by
  have hij : ¬ i = j := fun e => h e.symm
  induction l with
  | nil => rfl
  | cons kv l ih =>
    obtain ⟨k, w⟩ := kv
    by_cases h1 : k = i
    · subst h1
      simp [removeViews, viewIn, hij, ih]
    · by_cases h2 : k = j
      · subst h2
        simp [removeViews, viewIn, h]
      · simp [removeViews, viewIn, h1, h2, ih]

theorem viewIn_removeViews_eq (l : List (Nat × JobView)) (i : Nat) :
    viewIn (removeViews l i) i = none := by
  induction l with
  | nil => rfl
  | cons kv l ih =>
    obtain ⟨k, w⟩ := kv
    by_cases h1 : k = i <;> simp [removeViews, viewIn, h1, ih]

theorem viewIn_updateViews_ne (l : List (Nat × JobView)) (i j : Nat) (job : Job)
    (h : j ≠ i) : viewIn (updateViews l i job) j = viewIn l j := by
  have hij : ¬ i = j := fun e => h e.symm
  induction l with
  | nil => rfl
  | cons kv l ih =>
    obtain ⟨k, w⟩ := kv
    by_cases h1 : k = i
    · subst h1
      simp [updateViews, viewIn, hij, ih]
    · by_cases h2 : k = j
      · subst h2
        simp [updateViews, viewIn, h]
      · simp [updateViews, viewIn, h1, h2, ih]

theorem viewIn_updateViews_eq (l : List (Nat × JobView)) (i : Nat) (job : Job)
    (h : viewIn l i ≠ none) : viewIn (updateViews l i job) i = some { shown := job } := by
  induction l with
  | nil => exact absurd rfl h
  | cons kv l ih =>
    obtain ⟨k, w⟩ := kv
    by_cases h1 : k = i
    · simp [updateViews, viewIn, h1, JobView.Update]
    · simp only [viewIn, h1, if_false] at h
      simp [updateViews, viewIn, h1, ih h]

theorem viewIn_append_ne (l : List (Nat × JobView)) (i j : Nat) (w : JobView) (h : j ≠ i) :
    viewIn (l ++ [(i, w)]) j = viewIn l j := by
  induction l with
  | nil =>
    have h3 : ¬ i = j := fun e => h e.symm
    simp [viewIn, h3]
  | cons kv l ih =>
    obtain ⟨k, w'⟩ := kv
    by_cases h2 : k = j <;> simp [viewIn, h2, ih]

theorem viewIn_append_eq (l : List (Nat × JobView)) (i : Nat) (w : JobView)
    (h : viewIn l i = none) : viewIn (l ++ [(i, w)]) i = some w := by
  induction l with
  | nil => simp [viewIn]
  | cons kv l ih =>
    obtain ⟨k, w'⟩ := kv
    by_cases h1 : k = i
    · simp [viewIn, h1] at h
    · simp only [viewIn, h1, if_false] at h
      simp [viewIn, h1, ih h]

/-- What `UpdateJob` leaves in the registry: the views of the other job ids are as
before; under the job id of the snapshot there is no view exactly when the
snapshot is FINISHED and the id was known, and otherwise the view shows the
snapshot. -/
theorem JobsView.UpdateJob_view (v : JobsView) (job : Job) :
    (∀ j, j ≠ job.id → (v.UpdateJob job).view j = v.view j) ∧
    (v.view job.id ≠ none → job.IsFinished = true → (v.UpdateJob job).view job.id = none) ∧
    (v.view job.id ≠ none → job.IsFinished = false →
      (v.UpdateJob job).view job.id = some { shown := job }) ∧
    (v.view job.id = none → (v.UpdateJob job).view job.id = some { shown := job }) := by
  obtain ⟨l, l'⟩ := v
  simp only [JobsView.view, JobsView.UpdateJob]
  refine ⟨?_, ?_, ?_, ?_⟩
  · intro j hj
    cases hv : viewIn l job.id with
    | none => exact viewIn_append_ne l job.id j _ hj
    | some w =>
      by_cases hf : job.IsFinished = true
      · simp only [hf, if_true]
        exact viewIn_removeViews_ne l job.id j hj
      · simp only [hf, if_false, Bool.false_eq_true]
        exact viewIn_updateViews_ne l job.id j job hj
  · intro hk hf
    cases hv : viewIn l job.id with
    | none => exact absurd hv hk
    | some w =>
      simp only [hf, if_true]
      exact viewIn_removeViews_eq l job.id
  · intro hk hf
    cases hv : viewIn l job.id with
    | none => exact absurd hv hk
    | some w =>
      simp only [hf, if_false, Bool.false_eq_true]
      exact viewIn_updateViews_eq l job.id job hk
  · intro hv
    simp only [hv]
    exact viewIn_append_eq l job.id _ hv

/-- C12 (the code breaks it): a FINISHED snapshot of a job the registry does not
know. `UpdateJob` looks at `IsFinished` only for a known id; for an unknown one it
creates a view, so that afterwards the registry holds a view of the finished job.
Sent twice, the snapshot removes that view again. -/
theorem C12_finished_snapshot_creates_view :
    (JobsView.UpdateJob ⟨[], []⟩ finishedJob7).m_jobViews = [(7, { shown := finishedJob7 })] ∧
    (JobsView.UpdateJob ⟨[], []⟩ finishedJob7).m_layout = [7] ∧
    (JobsView.UpdateJob ⟨[], []⟩ finishedJob7).viewCount 7 = 1 ∧
    ((JobsView.UpdateJob ⟨[], []⟩ finishedJob7).UpdateJob finishedJob7).m_jobViews = [] ∧
    ((JobsView.UpdateJob ⟨[], []⟩ runningJob7).UpdateJob finishedJob7).m_jobViews = [] := by
  decide

/-! ## C13: the bucket of a GET page -/

/-- C13 (the code breaks it): a GET of the object "o1" of the bucket "b1" and the
object "o2" of the bucket "b2". The page is cut at the second URL, it holds the key
"o1" alone, and the negotiation call names the bucket "b2": `PrepareBulkGets` has
set the bucket name of the work item from the second URL before it found that the
bucket changed. -/
theorem C13_page_negotiated_with_next_bucket :
    (GetSys.exec calmEnv id (BulkGet twoBucketUrls ['t']) [0, 0]).map
        (fun s => (bulkRequests s.log, s.item.urls))
      = some ([("b2".toList, ["o1".toList])], twoBucketUrls.drop 1) := by
  decide

end DS3Browser
